import Mathlib

/-!
# Verification of the AlgoLab OS-algorithm simulation engines

Shallow embedding in Lean 4 of the algorithm-simulation code of the
`CS_450_Alogrithms` repository (a React toolkit simulating CPU scheduling,
memory fits, page replacement, disk scheduling and the Banker's algorithm),
together with proofs and refutations of the frozen specification claims.

Each section first translates the relevant JavaScript functions into Lean
definitions (JS numbers become `ℚ` where fractional values can flow in, `ℕ`
or `ℤ` where the source only ever holds integers; in-place array mutation
becomes explicit state passing; `while (true)` victim searches become
fuel-indexed recursions returning `Option`), and then states the theorems.
-/

namespace AlgoLab

/-! ## Shared: the JS stable sort

`Array.prototype.sort(cmp)` is specified as a stable sort by the comparator.
For a total comparator the stable sorted output is unique, so it is embedded
as a structural stable insertion sort (kernel-computable, unlike a
well-founded merge sort). -/

/-- Insert `a` before the first element it compares `le` to (stable: ties
keep the earlier element first). -/
def orderedInsert {α : Type} (le : α → α → Bool) (a : α) : List α → List α
  | [] => [a]
  | b :: l => if le a b then a :: b :: l else b :: orderedInsert le a l

/-- Stable insertion sort by a `Bool` comparator — the JS
`sort((a, b) => …)` for a total comparator. -/
def sortBy {α : Type} (le : α → α → Bool) : List α → List α
  | [] => []
  | a :: l => orderedInsert le a (sortBy le l)

/-- `orderedInsert` adds one element. -/
lemma length_orderedInsert {α : Type} (le : α → α → Bool) (a : α)
    (l : List α) : (orderedInsert le a l).length = l.length + 1 := by
  induction l with
  | nil => rfl
  | cons b l ih =>
    rw [orderedInsert]
    split
    · simp
    · simp [ih]

/-- `sortBy` preserves length. -/
lemma length_sortBy {α : Type} (le : α → α → Bool) (l : List α) :
    (sortBy le l).length = l.length := by
  induction l with
  | nil => rfl
  | cons a l ih => rw [sortBy, length_orderedInsert, ih, List.length_cons]

/-- Membership in `orderedInsert`. -/
lemma mem_orderedInsert {α : Type} (le : α → α → Bool) (a x : α)
    (l : List α) : x ∈ orderedInsert le a l ↔ x = a ∨ x ∈ l := by
  induction l with
  | nil => simp [orderedInsert]
  | cons b l ih =>
    rw [orderedInsert]
    split
    · simp
    · simp [ih]
      tauto

/-- `sortBy` preserves membership. -/
lemma mem_sortBy {α : Type} (le : α → α → Bool) (x : α) (l : List α) :
    x ∈ sortBy le l ↔ x ∈ l := by
  induction l with
  | nil => simp [sortBy]
  | cons a l ih =>
    rw [sortBy, mem_orderedInsert]
    simp [ih]

/-! ## Disk scheduling engine (`DiskScheduling.js`)

`orderRequests` builds the visit order for FCFS/SSTF/SCAN/CSCAN/LOOK/CLOOK
from the head position, the sweep direction and the pending requests;
`simulate` turns the order into a timeline of moves and reports
`total` seek, the `timeline` and `served = order.length`. -/

namespace Disk

/-- `const maxCyl = 199`. -/
def maxCyl : ℕ := 199

/-- The two values of the `direction` select input. -/
inductive Direction
  | right
  | left
  deriving DecidableEq, Repr

/-- The six disk-scheduling algorithms. -/
inductive Algorithm
  | fcfs
  | sstf
  | scan
  | cscan
  | look
  | clook
  deriving DecidableEq, Repr

/-- One entry of the timeline produced by `simulate`:
`{ index, position, move, cumulative }`. -/
structure TimelineStep where
  index : ℕ
  position : ℕ
  move : ℤ
  cumulative : ℤ
  deriving DecidableEq, Repr

/-- The result object of `simulate`: `{ path, timeline, total, served }`. -/
structure SimResult where
  path : List ℕ
  timeline : List TimelineStep
  total : ℤ
  served : ℕ
  deriving DecidableEq, Repr

/-- The step of the inner `for` loop of `sstf`: keep `(bestIdx, bestDist)`,
replacing it only on a strictly smaller distance. -/
def sstfStep (current : ℕ) (acc : ℕ × ℕ) (x : ℕ × ℕ) : ℕ × ℕ :=
  let dist := max x.2 current - min x.2 current
  if dist < acc.2 then (x.1, dist) else acc

/-- The inner `for` loop of `sstf`: index of the pending request nearest to
`current` (strict `<`, so the first occurrence of the minimum distance wins). -/
def sstfPick (current : ℕ) (pending : List ℕ) : ℕ :=
  match pending with
  | [] => 0
  | p₀ :: rest =>
    ((rest.enumFrom 1).foldl (sstfStep current)
      (0, max p₀ current - min p₀ current)).1

/-- The index kept by the `sstf` scan always points into the pending list. -/
lemma sstfPick_lt_length (current : ℕ) (pending : List ℕ) (h : pending ≠ []) :
    sstfPick current pending < pending.length := by
  match pending with
  | p₀ :: rest =>
    show ((rest.enumFrom 1).foldl (sstfStep current)
      (0, max p₀ current - min p₀ current)).1 < rest.length + 1
    have main : ∀ (l : List (ℕ × ℕ)) (acc : ℕ × ℕ),
        acc.1 < rest.length + 1 → (∀ x ∈ l, x.1 < rest.length + 1) →
        (l.foldl (sstfStep current) acc).1 < rest.length + 1 := by
      intro l
      induction l with
      | nil => intro acc hacc _; exact hacc
      | cons x xs ih =>
        intro acc hacc hmem
        apply ih
        · unfold sstfStep
          dsimp only
          split
          · exact hmem x (by simp)
          · exact hacc
        · intro y hy; exact hmem y (by simp [hy])
    apply main
    · simp
    · intro x hx
      rcases x with ⟨i, p⟩
      have := List.mem_enumFrom hx
      omega

/-- The `while (pending.length)` loop of `sstf`: repeatedly serve the nearest
pending request (`Math.abs` distances on naturals). -/
def sstfGo (current : ℕ) (pending : List ℕ) : List ℕ :=
  match h : pending with
  | [] => []
  | _ :: _ =>
    let bestIdx := sstfPick current pending
    let next := pending.getD bestIdx 0
    next :: sstfGo next (pending.eraseIdx bestIdx)
termination_by pending.length
decreasing_by
  have hlt : sstfPick current pending < pending.length := by
    apply sstfPick_lt_length; rw [h]; simp
  rw [List.length_eraseIdx_of_lt (by simpa [h] using hlt)]
  have : pending.length ≠ 0 := by rw [h]; simp
  simp only [h] at *
  omega

/-- `const sstf = (head, reqs) => …`. -/
def sstf (head : ℕ) (reqs : List ℕ) : List ℕ :=
  sstfGo head reqs

/-- `const orderRequests = (algorithm, head, direction, reqs) => …`.
`left`/`right` are the requests strictly below / at-or-above the head,
each sorted ascending (JS `sort((a, b) => a - b)`). -/
def orderRequests (algorithm : Algorithm) (head : ℕ) (direction : Direction)
    (reqs : List ℕ) : List ℕ :=
  let left := sortBy (· ≤ ·) (reqs.filter (fun r => r < head))
  let right := sortBy (· ≤ ·) (reqs.filter (fun r => head ≤ r))
  match algorithm with
  | .fcfs => reqs
  | .sstf => sstf head reqs
  | .scan =>
    match direction with
    | .right => right ++ [maxCyl] ++ left.reverse
    | .left => left.reverse ++ [0] ++ right
  | .cscan =>
    match direction with
    | .right => right ++ [maxCyl] ++ [0] ++ left
    | .left => left.reverse ++ [0] ++ [maxCyl] ++ right.reverse
  | .look =>
    match direction with
    | .right => right ++ left.reverse
    | .left => left.reverse ++ right
  | .clook =>
    match direction with
    | .right => right ++ left
    | .left => left.reverse ++ right.reverse

/-- The `for` loop of `simulate`, walking `path` and accumulating
absolute moves. `prev` is `path[i - 1]`, `total` the running sum,
`idx` the running index `i - 1`. -/
def buildTimeline (prev : ℕ) (idx : ℕ) (total : ℤ) :
    List ℕ → List TimelineStep
  | [] => []
  | pos :: rest =>
    let move : ℤ := |(pos : ℤ) - (prev : ℤ)|
    let cumulative := total + move
    { index := idx, position := pos, move := move, cumulative := cumulative }
      :: buildTimeline pos (idx + 1) cumulative rest

/-- `const simulate = (algorithm, head, direction, requests) => …`. -/
def simulate (algorithm : Algorithm) (head : ℕ) (direction : Direction)
    (requests : List ℕ) : SimResult :=
  let order := orderRequests algorithm head direction requests
  let path := head :: order
  let timeline := buildTimeline head 0 0 order
  let total := (timeline.getLast?.map (·.cumulative)).getD 0
  { path := path, timeline := timeline, total := total, served := order.length }

/-- Splitting a request list at the head preserves its length. -/
lemma length_filter_lt_add_filter_ge (head : ℕ) (reqs : List ℕ) :
    (reqs.filter (fun r => r < head)).length
      + (reqs.filter (fun r => head ≤ r)).length = reqs.length := by
  induction reqs with
  | nil => simp
  | cons r rest ih =>
    by_cases h : r < head
    · have h' : ¬ head ≤ r := by omega
      simp [List.filter, h, h', ih]
      omega
    · have h' : head ≤ r := by omega
      simp [List.filter, h, h', ih]
      omega

end Disk

end AlgoLab

namespace AlgoLab

/-! ## Memory fit engine (`FitAlgorithm.js`)

The component keeps a list of blocks `{id, label, size, free, requested}` in
React state, starting from a single free block of 200 units.  `allocate`
locates a hole via `findBlockIndex` (First/Best/Worst/Next Fit), splices in an
allocated block plus an optional remainder hole, and coalesces; `freeProcess`
marks a block free by id and coalesces.  JS numbers are modelled as `ℤ`
(the simulator operates in the exact integer regime of float arithmetic);
`Date.now()` id generation is modelled by a strictly growing counter. -/

namespace Fit

/-- A memory block.  `label` is `none` for `'Free'` and `some pid` for
`` `P${pid}` ``. -/
structure Block where
  id : ℕ
  label : Option ℕ
  size : ℤ
  free : Bool
  requested : ℤ
  deriving DecidableEq, Repr, Inhabited

/-- `const initialBlocks = [{ id: 1, label: 'Free', size: 200, free: true, requested: 0 }]`. -/
def initialBlocks : List Block :=
  [{ id := 1, label := none, size := 200, free := true, requested := 0 }]

/-- The four fit strategies. -/
inductive Algorithm
  | first
  | best
  | worst
  | next
  deriving DecidableEq, Repr

/-- The `for` loop of `coalesce`, with the `merged` output array kept in
reverse order (its head is the JS `merged[merged.length - 1]`): a free
current block is absorbed into a free last block, otherwise pushed. -/
def coalesceRev (acc : List Block) : List Block → List Block
  | [] => acc.reverse
  | cur :: rest =>
    match acc with
    | [] => coalesceRev [cur] rest
    | last :: acc' =>
      if cur.free && last.free then
        coalesceRev ({ last with size := last.size + cur.size } :: acc') rest
      else
        coalesceRev (cur :: last :: acc') rest

/-- `const coalesce = (list) => …`: merge adjacent free blocks, then re-id
blocks whose id is falsy (`block.id || idx + 1`). -/
def coalesce (list : List Block) : List Block :=
  (coalesceRev [] list).enum.map
    (fun p => { p.2 with id := if p.2.id = 0 then p.1 + 1 else p.2.id })

/-- The qualification test used by every strategy:
`blocks[i].free && blocks[i].size >= size`. -/
def qualifies (size : ℤ) (b : Block) : Bool :=
  b.free && size ≤ b.size

/-- `const findBlockIndex = (size) => …` (strategy-dependent hole search;
JS `-1` becomes `none`).  Best/Worst sort the qualifying indices by size with
the stable JS sort and take the first; Next scans circularly from
`nextFitStart`, wrapping once. -/
def findBlockIndex (algo : Algorithm) (blocks : List Block) (nextFitStart : ℕ)
    (size : ℤ) : Option ℕ :=
  match algo with
  | .first => blocks.findIdx? (qualifies size)
  | .best =>
    (sortBy (fun a b => (blocks.getD a default).size ≤ (blocks.getD b default).size)
      ((List.range blocks.length).filter
        (fun i => qualifies size (blocks.getD i default)))).head?
  | .worst =>
    (sortBy (fun a b => (blocks.getD b default).size ≤ (blocks.getD a default).size)
      ((List.range blocks.length).filter
        (fun i => qualifies size (blocks.getD i default)))).head?
  | .next =>
    (((List.range blocks.length).map
        (fun offset => (nextFitStart + offset) % blocks.length)).find?
      (fun idx => qualifies size (blocks.getD idx default)))

/-- The component state touched by the fit engine. `clock` models
`Date.now()`: a strictly growing source of fresh, nonzero block ids. -/
structure State where
  blocks : List Block
  nextFitStart : ℕ
  pidCounter : ℕ
  clock : ℕ
  deriving DecidableEq, Repr

/-- The initial state: one free block of 200 units. -/
def initialState : State :=
  { blocks := initialBlocks, nextFitStart := 0, pidCounter := 1, clock := 1000 }

/-- `const allocate = () => …`: validate the size, find a hole, replace it by
an allocated block of exactly `size` plus an optional remainder hole,
coalesce, and (for Next Fit) reset the resume index to the first free block
of the coalesced list (`0` when there is none). -/
def allocate (algo : Algorithm) (requestSize : ℤ) (st : State) : State :=
  if requestSize ≤ 0 then st
  else
    match findBlockIndex algo st.blocks st.nextFitStart requestSize with
    | none => st
    | some index =>
      let pid := st.pidCounter
      let target := st.blocks.getD index default
      let remaining := target.size - requestSize
      let newBlock : Block :=
        { id := st.clock, label := some pid, size := requestSize,
          free := false, requested := requestSize }
      let updated := st.blocks.set index newBlock
      let updated :=
        if 0 < remaining then
          updated.insertIdx (index + 1)
            { id := st.clock + 1, label := none, size := remaining,
              free := true, requested := 0 }
        else updated
      let coalesced := coalesce updated
      let nextStart :=
        if algo = .next then (coalesced.findIdx? (·.free)).getD 0
        else st.nextFitStart
      { blocks := coalesced, nextFitStart := nextStart,
        pidCounter := st.pidCounter + 1, clock := st.clock + 2 }

/-- `const freeProcess = () => …`: a falsy target (`!freeTarget`) is rejected;
otherwise every block with the chosen id is marked free and the list is
coalesced.  The Next Fit resume index is not touched. -/
def freeProcess (targetId : ℕ) (st : State) : State :=
  if targetId = 0 then st
  else
    { st with
      blocks := coalesce (st.blocks.map (fun b =>
        if b.id = targetId then { b with free := true, label := none, requested := 0 }
        else b)) }

/-- A user-driven fit-engine operation. -/
inductive Op
  | alloc (algo : Algorithm) (size : ℤ)
  | free (targetId : ℕ)
  deriving DecidableEq, Repr

/-- Apply one operation. -/
def applyOp (st : State) : Op → State
  | .alloc algo size => allocate algo size st
  | .free targetId => freeProcess targetId st

/-- Apply a sequence of operations from a given state. -/
def applyOps (ops : List Op) (st : State) : State :=
  ops.foldl applyOp st

/-- Total of the block sizes. -/
def sumSize (l : List Block) : ℤ :=
  (l.map (·.size)).sum

/-- No two adjacent blocks of the list are both free. -/
def noAdjacentFree (l : List Block) : Prop :=
  List.Chain' (fun a b => a.free = false ∨ b.free = false) l

/-- The merge loop preserves the total size. -/
lemma sumSize_coalesceRev (rest acc : List Block) :
    sumSize (coalesceRev acc rest) = sumSize acc + sumSize rest := by
  induction rest generalizing acc with
  | nil => simp [coalesceRev, sumSize, List.sum_reverse]
  | cons cur rest ih =>
    match acc with
    | [] =>
      rw [coalesceRev, ih]
      simp [sumSize]
    | last :: acc' =>
      rw [coalesceRev]
      split
      · rw [ih]
        simp [sumSize]
        ring
      · rw [ih]
        simp [sumSize]
        ring

/-- Re-labelling ids preserves the total size. -/
lemma sumSize_coalesce (l : List Block) : sumSize (coalesce l) = sumSize l := by
  have h := sumSize_coalesceRev l []
  unfold coalesce sumSize
  rw [List.map_map]
  rw [show ((fun b : Block => b.size) ∘ fun p : ℕ × Block =>
      { p.2 with id := if p.2.id = 0 then p.1 + 1 else p.2.id }) =
      ((fun b : Block => b.size) ∘ Prod.snd) from rfl]
  rw [← List.map_map, List.enum_map_snd]
  simpa [sumSize] using h

/-- The adjacency relation of `noAdjacentFree`, on the freeness flag only. -/
def relFree (a b : Block) : Prop :=
  a.free = false ∨ b.free = false

/-- The merge loop of `coalesce` never leaves two adjacent free blocks. -/
lemma chain'_coalesceRev (rest acc : List Block)
    (hacc : List.Chain' relFree acc) :
    List.Chain' relFree (coalesceRev acc rest) := by
  induction rest generalizing acc with
  | nil =>
    rw [coalesceRev, List.chain'_reverse]
    exact hacc.imp (fun a b hab => hab.symm)
  | cons cur rest ih =>
    match acc with
    | [] =>
      rw [coalesceRev]
      exact ih [cur] (by simp)
    | last :: acc' =>
      rw [coalesceRev]
      split
      · apply ih
        rw [List.chain'_cons'] at hacc ⊢
        refine ⟨fun y hy => ?_, hacc.2⟩
        have := hacc.1 y hy
        unfold relFree at this ⊢
        exact this
      · next hguard =>
        apply ih
        rw [List.chain'_cons]
        refine ⟨?_, hacc⟩
        unfold relFree
        cases hc : cur.free with
        | false => exact Or.inl rfl
        | true =>
          cases hl : last.free with
          | false => exact Or.inr rfl
          | true => exact absurd (by simp [hc, hl]) hguard

/-- After any `coalesce`, no two adjacent blocks are both free. -/
lemma noAdjacentFree_coalesce (l : List Block) : noAdjacentFree (coalesce l) := by
  have h := chain'_coalesceRev l [] (by simp)
  unfold noAdjacentFree coalesce
  rw [List.chain'_map]
  have henum : List.Chain' (fun a b : ℕ × Block => relFree a.2 b.2)
      (coalesceRev [] l).enum := by
    have h2 := (List.chain'_map (R := relFree) (Prod.snd : ℕ × Block → Block)
      (l := (coalesceRev [] l).enum)).mp
    rw [List.enum_map_snd] at h2
    exact h2 h
  exact henum.imp (fun a b hab => hab)

/-- Setting a valid index replaces that block's size in the total. -/
lemma sumSize_set (l : List Block) (i : ℕ) (v : Block) (h : i < l.length) :
    sumSize (l.set i v) = sumSize l - (l.getD i default).size + v.size := by
  induction l generalizing i with
  | nil => simp at h
  | cons b rest ih =>
    cases i with
    | zero => simp [sumSize]; ring
    | succ i =>
      simp only [List.set, sumSize, List.map, List.sum_cons, List.getD_cons_succ]
      have := ih i (by simpa using h)
      simp only [sumSize] at this
      rw [this]
      ring

/-- Inserting at an in-range position adds the new block's size to the total. -/
lemma sumSize_insertIdx (l : List Block) (i : ℕ) (v : Block) (h : i ≤ l.length) :
    sumSize (l.insertIdx i v) = sumSize l + v.size := by
  induction l generalizing i with
  | nil =>
    have hi : i = 0 := by simpa using h
    subst hi
    simp [sumSize]
  | cons b rest ih =>
    cases i with
    | zero => simp [sumSize]; ring
    | succ i =>
      rw [List.insertIdx_succ_cons]
      simp only [sumSize, List.map, List.sum_cons]
      have := ih i (by simpa using h)
      simp only [sumSize] at this
      rw [this]
      ring

/-- A successful `findBlockIndex` returns an in-range index of a qualifying
free hole. -/
lemma findBlockIndex_spec (algo : Algorithm) (blocks : List Block)
    (start : ℕ) (size : ℤ) (i : ℕ)
    (h : findBlockIndex algo blocks start size = some i) :
    i < blocks.length ∧ qualifies size (blocks.getD i default) = true := by
  cases algo with
  | first =>
    unfold findBlockIndex at h
    rw [List.findIdx?_eq_some_iff_getElem] at h
    obtain ⟨hlt, hp, -⟩ := h
    exact ⟨hlt, by rwa [List.getD_eq_getElem _ _ hlt]⟩
  | best =>
    unfold findBlockIndex at h
    have hmem : i ∈ (List.range blocks.length).filter
        (fun i => qualifies size (blocks.getD i default)) := by
      rw [← mem_sortBy
        (fun a b => decide ((blocks.getD a default).size ≤ (blocks.getD b default).size))]
      exact List.mem_of_mem_head? h
    rw [List.mem_filter, List.mem_range] at hmem
    exact ⟨hmem.1, by simpa using hmem.2⟩
  | worst =>
    unfold findBlockIndex at h
    have hmem : i ∈ (List.range blocks.length).filter
        (fun i => qualifies size (blocks.getD i default)) := by
      rw [← mem_sortBy
        (fun a b => decide ((blocks.getD b default).size ≤ (blocks.getD a default).size))]
      exact List.mem_of_mem_head? h
    rw [List.mem_filter, List.mem_range] at hmem
    exact ⟨hmem.1, by simpa using hmem.2⟩
  | next =>
    unfold findBlockIndex at h
    have hq := List.find?_some h
    have hmem := List.mem_of_find?_eq_some h
    rw [List.mem_map] at hmem
    obtain ⟨off, hoff, rfl⟩ := hmem
    rw [List.mem_range] at hoff
    have hpos : 0 < blocks.length := by omega
    exact ⟨Nat.mod_lt _ hpos, by simpa using hq⟩

/-- The fit-engine state invariant claimed by the spec: constant total size
and no two adjacent free blocks. -/
def Invariant (st : State) : Prop :=
  sumSize st.blocks = 200 ∧ noAdjacentFree st.blocks

/-- `allocate` preserves the invariant. -/
lemma allocate_invariant (algo : Algorithm) (size : ℤ) (st : State)
    (h : Invariant st) : Invariant (allocate algo size st) := by
  unfold allocate
  split
  · exact h
  · cases hfind : findBlockIndex algo st.blocks st.nextFitStart size with
    | none => exact h
    | some index =>
      obtain ⟨hlt, hq⟩ := findBlockIndex_spec algo st.blocks st.nextFitStart size index hfind
      unfold qualifies at hq
      simp only [Bool.and_eq_true, decide_eq_true_eq] at hq
      constructor
      · show sumSize (coalesce _) = 200
        rw [sumSize_coalesce]
        split
        · next hrem =>
          rw [sumSize_insertIdx _ _ _ (by rw [List.length_set]; omega)]
          rw [sumSize_set _ _ _ hlt]
          have := h.1
          dsimp only
          omega
        · next hrem =>
          rw [sumSize_set _ _ _ hlt]
          have := h.1
          have hz : (st.blocks.getD index default).size - size ≤ 0 := by omega
          have hge : size ≤ (st.blocks.getD index default).size := hq.2
          dsimp only
          omega
      · exact noAdjacentFree_coalesce _

/-- `freeProcess` preserves the invariant. -/
lemma freeProcess_invariant (targetId : ℕ) (st : State)
    (h : Invariant st) : Invariant (freeProcess targetId st) := by
  unfold freeProcess
  split
  · exact h
  · constructor
    · show sumSize (coalesce _) = 200
      rw [sumSize_coalesce]
      have : sumSize (st.blocks.map (fun b =>
          if b.id = targetId then { b with free := true, label := none, requested := 0 }
          else b)) = sumSize st.blocks := by
        unfold sumSize
        rw [List.map_map]
        congr 1
        apply List.map_congr_left
        intro b _
        by_cases hb : b.id = targetId <;> simp [hb]
      rw [this]
      exact h.1
    · exact noAdjacentFree_coalesce _

end Fit

/-! ## Banker's algorithm (`BanksAlgorithm.js`)

State is the `maxMatrix`/`allocation`/`available` matrices held in React
state; `need` is derived (`Math.max(max - allocation, 0)`).  `checkSafety`
runs the standard work/finish loop; `handleSubmitRequest` validates a request
against Need then Available, tentatively applies it and commits only when the
tentative state is still safe. -/

namespace Bank

/-- The matrices held in state. `need` is derived, not stored. -/
structure State where
  maxMatrix : List (List ℤ)
  allocation : List (List ℤ)
  available : List ℤ
  deriving DecidableEq, Repr

/-- `const need = maxMatrix.map((row, i) => row.map((value, j) =>
Math.max(value - allocation[i][j], 0)))`. -/
def need (maxMatrix allocation : List (List ℤ)) : List (List ℤ) :=
  maxMatrix.enum.map (fun p =>
    p.2.enum.map (fun q => max (q.2 - ((allocation.getD p.1 []).getD q.1 0)) 0))

/-- Result of `checkSafety`: `{ safe, sequence }`. -/
structure SafetyResult where
  safe : Bool
  sequence : List ℕ
  deriving DecidableEq, Repr

/-- The `for` loop inside `checkSafety`'s `while`: scan the processes in
index order, finishing any unfinished process whose need row is covered by
`work`, returning the updated `(work, finish, sequence, progress)`. -/
def safetyPass (allocation needM : List (List ℤ)) :
    List ℕ → List ℤ × List Bool × List ℕ × Bool → List ℤ × List Bool × List ℕ × Bool
  | [], acc => acc
  | i :: rest, (work, finish, seq, progress) =>
    if finish.getD i false then safetyPass allocation needM rest (work, finish, seq, progress)
    else
      let canFinish := (needM.getD i []).enum.all (fun q => q.2 ≤ work.getD q.1 0)
      if canFinish then
        safetyPass allocation needM rest
          (work.enum.map (fun q => q.2 + ((allocation.getD i []).getD q.1 0)),
            finish.set i true, seq ++ [i], true)
      else safetyPass allocation needM rest (work, finish, seq, progress)

/-- The `while (progress)` loop of `checkSafety` as a fuel-indexed recursion.
A pass that sets `progress` finishes at least one previously unfinished
process, so the JS loop runs at most `allocation.length + 1` passes;
`checkSafety` below supplies exactly that fuel. -/
def safetyLoop (allocation needM : List (List ℤ)) :
    ℕ → List ℤ × List Bool × List ℕ → List ℤ × List Bool × List ℕ
  | 0, acc => acc
  | fuel + 1, (work, finish, seq) =>
    match safetyPass allocation needM (List.range allocation.length)
      (work, finish, seq, false) with
    | (work', finish', seq', progress) =>
      if progress then safetyLoop allocation needM fuel (work', finish', seq')
      else (work', finish', seq')

/-- `const checkSafety = (available, allocation, need) => …`. -/
def checkSafety (available : List ℤ) (allocation needM : List (List ℤ)) :
    SafetyResult :=
  match safetyLoop allocation needM (allocation.length + 1)
    (available, allocation.map (fun _ => false), []) with
  | (_, finish, seq) => { safe := finish.all id, sequence := seq }

/-- The `setMessage` outcomes of `handleSubmitRequest`. -/
inductive Message
  | selectValidProcess
  | exceedsNeed
  | exceedsAvailable
  | unsafeState
  | granted (sequence : List ℕ)
  deriving DecidableEq, Repr

/-- `req.every((r, i) => r <= needRow[i])`. -/
def reqWithinNeed (needRow req : List ℤ) : Bool :=
  req.enum.all (fun p => p.2 ≤ needRow.getD p.1 0)

/-- `req.every((r, i) => r <= available[i])`. -/
def reqWithinAvailable (available req : List ℤ) : Bool :=
  req.enum.all (fun p => p.2 ≤ available.getD p.1 0)

/-- `const newAvailable = available.map((a, i) => a - req[i])`. -/
def newAvailable (available req : List ℤ) : List ℤ :=
  available.enum.map (fun p => p.2 - req.getD p.1 0)

/-- `const newAllocation = allocation.map((row, i) => i === pid ?
row.map((a, j) => a + req[j]) : row)`. -/
def newAllocation (allocation : List (List ℤ)) (pid : ℕ) (req : List ℤ) :
    List (List ℤ) :=
  allocation.enum.map (fun p =>
    if p.1 = pid then p.2.enum.map (fun q => q.2 + req.getD q.1 0) else p.2)

/-- `const newNeed = need.map((row, i) => i === pid ?
row.map((n, j) => n - req[j]) : row)`. -/
def newNeed (needM : List (List ℤ)) (pid : ℕ) (req : List ℤ) :
    List (List ℤ) :=
  needM.enum.map (fun p =>
    if p.1 = pid then p.2.enum.map (fun q => q.2 - req.getD q.1 0) else p.2)

/-- The safety check of the tentatively updated state. -/
def tentative (st : State) (pid : ℕ) (req : List ℤ) : SafetyResult :=
  checkSafety (newAvailable st.available req) (newAllocation st.allocation pid req)
    (newNeed (need st.maxMatrix st.allocation) pid req)

/-- `const handleSubmitRequest = () => …`: validate the process id, reject a
request exceeding the Need row, then one exceeding Available, then apply
tentatively and commit only when `checkSafety` stays safe; every rejection
leaves the state untouched. -/
def handleSubmitRequest (st : State) (pid : ℕ) (req : List ℤ) :
    Message × State :=
  if st.allocation.length ≤ pid then (.selectValidProcess, st)
  else if ¬ reqWithinNeed ((need st.maxMatrix st.allocation).getD pid []) req then
    (.exceedsNeed, st)
  else if ¬ reqWithinAvailable st.available req then (.exceedsAvailable, st)
  else if ¬ (tentative st pid req).safe then (.unsafeState, st)
  else (.granted (tentative st pid req).sequence,
    { st with
      available := newAvailable st.available req,
      allocation := newAllocation st.allocation pid req })

/-- The sample state shipped with the component (`sampleMax`,
`sampleAllocation`, `sampleAvailable`). -/
def sampleState : State :=
  { maxMatrix := [[7, 5, 3], [3, 2, 2], [9, 0, 2], [2, 2, 2], [4, 3, 3]],
    allocation := [[0, 1, 0], [2, 0, 0], [3, 0, 2], [2, 1, 1], [0, 0, 2]],
    available := [3, 3, 2] }

end Bank

/-! ## Page replacement engine (`PageReplacement.js`)

`simulate(algorithm, framesCount, refs)` walks the reference string keeping
`frames` (`null`able page slots), per-frame `meta` (`{ref, lastUsed}`), a
clock/FIFO `pointer` and a timeline; on a fault a per-policy `find*` function
chooses the victim frame.  `now()` is `timeline.length`, which always equals
the index of the reference being processed (one step is pushed per
reference), so the embedding passes that index for `now()`.  The `while
(true)` loops of `findClock`/`findWSClock` become fuel-indexed recursions
returning `none` when the fuel runs out — `findWSClock` genuinely loops
forever on reachable inputs, see `wsclock_search_diverges`. -/

namespace Page

/-- Per-frame metadata `{ ref: 0|1, lastUsed }` (`lastUsed` starts at `-1`). -/
structure Meta where
  ref : ℕ
  lastUsed : ℤ
  deriving DecidableEq, Repr, Inhabited

/-- The six page-replacement policies. -/
inductive Algorithm
  | fifo
  | lru
  | mru
  | clock
  | wsclock
  | opt
  deriving DecidableEq, Repr

/-- One timeline entry: `{ index, page, frames, fault, replacedIndex }`
(`replacedIndex` is `-1` on hits, as in the JS). -/
structure Step where
  index : ℕ
  page : ℕ
  frames : List (Option ℕ)
  fault : Bool
  replacedIndex : ℤ
  deriving DecidableEq, Repr

/-- The result of `simulate`: `{ timeline, hits, faults, references }`. -/
structure SimResult where
  timeline : List Step
  hits : ℕ
  faults : ℕ
  references : ℕ
  deriving DecidableEq, Repr

/-- `const findFifo = (frames, pointer) => …`: first empty frame, else the
FIFO pointer. -/
def findFifo (frames : List (Option ℕ)) (pointer : ℕ) : ℕ :=
  match frames.findIdx? (fun o => o.isNone) with
  | some empty => empty
  | none => pointer

/-- `const findLRU = (frames, meta) => …`: first empty frame, else the frame
whose `lastUsed` is smallest.  The JS initialises `oldest = 0` and forces an
update at `i === 0`, so the fold starts from `(0, 0)` and updates on
`lastUsed < oldest || i === 0`. -/
def findLRU (frames : List (Option ℕ)) (meta : List Meta) : ℕ :=
  match frames.findIdx? (fun o => o.isNone) with
  | some empty => empty
  | none =>
    (meta.enum.foldl (fun (acc : ℤ × ℕ) q =>
      if q.2.lastUsed < acc.1 ∨ q.1 = 0 then (q.2.lastUsed, q.1) else acc)
      ((0 : ℤ), 0)).2

/-- `const findMRU = (frames, meta) => …`: first empty frame, else the frame
whose `lastUsed` is largest.  The JS initialises `newest = -Infinity`; the
fold models that with a `started` flag that is false only before any
comparison, so the first frame always wins the initial comparison. -/
def findMRU (frames : List (Option ℕ)) (meta : List Meta) : ℕ :=
  match frames.findIdx? (fun o => o.isNone) with
  | some empty => empty
  | none =>
    (meta.enum.foldl (fun (acc : Bool × ℤ × ℕ) q =>
      if acc.1 = false ∨ acc.2.1 < q.2.lastUsed then (true, q.2.lastUsed, q.1) else acc)
      (false, 0, 0)).2.2

/-- The `while (true)` loop of `const findClock = (frames, meta, pointer)`,
with fuel: an empty or reference-bit-0 frame is returned, a
reference-bit-1 frame has its bit cleared and the hand advances.  Returns the
victim index, the next pointer and the updated metadata. -/
def findClockGo (frames : List (Option ℕ)) :
    ℕ → List Meta → ℕ → Option (ℕ × ℕ × List Meta)
  | 0, _, _ => none
  | fuel + 1, meta, p =>
    if (frames.getD p none).isNone then some (p, (p + 1) % frames.length, meta)
    else if (meta.getD p default).ref = 0 then some (p, (p + 1) % frames.length, meta)
    else findClockGo frames fuel
      (meta.set p { meta.getD p default with ref := 0 }) ((p + 1) % frames.length)

/-- The `while (true)` loop of `const findWSClock = (frames, meta, pointer,
currentTime)` (`tau = 4`), with fuel: an empty frame is returned; a
referenced frame has its bit cleared and its timestamp refreshed to
`currentTime` as the hand passes; an unreferenced frame is evicted only when
its age exceeds `tau`. -/
def findWSClockGo (frames : List (Option ℕ)) (currentTime : ℤ) :
    ℕ → List Meta → ℕ → Option (ℕ × ℕ × List Meta)
  | 0, _, _ => none
  | fuel + 1, meta, p =>
    if (frames.getD p none).isNone then some (p, (p + 1) % frames.length, meta)
    else if (meta.getD p default).ref = 1 then
      findWSClockGo frames currentTime fuel
        (meta.set p { ref := 0, lastUsed := currentTime }) ((p + 1) % frames.length)
    else if 4 < currentTime - (meta.getD p default).lastUsed then
      some (p, (p + 1) % frames.length, meta)
    else findWSClockGo frames currentTime fuel meta ((p + 1) % frames.length)

/-- `refs.indexOf(page, startIndex)`: the absolute index of the first
occurrence of `page` at or after `startIndex`, `-1` when there is none. -/
def indexOfFrom (refs : List ℕ) (startIndex : ℕ) (page : ℕ) : ℤ :=
  match (refs.drop startIndex).findIdx? (fun x => x = page) with
  | some i => (startIndex + i : ℕ)
  | none => -1

/-- One iteration of `findOPT`'s scan over the frames: a page never used
again (`indexOf` returning `-1`, modelled by the `Bool` infinity flag) wins
outright; among found next uses, strictly greater wins. -/
def optStep (refs : List ℕ) (startIndex : ℕ) (acc : Bool × ℤ × ℕ)
    (q : ℕ × Option ℕ) : Bool × ℤ × ℕ :=
  let nextUse : ℤ := match q.2 with
    | none => -1
    | some pg => indexOfFrom refs startIndex pg
  if nextUse = -1 then (true, acc.2.1, q.1)
  else if acc.1 = false ∧ acc.2.1 < nextUse then (false, nextUse, q.1) else acc

/-- `const findOPT = (frames, refs, startIndex) => …`: first empty frame,
else the resident page whose next use is farthest. -/
def findOPT (frames : List (Option ℕ)) (refs : List ℕ) (startIndex : ℕ) : ℕ :=
  match frames.findIdx? (fun o => o.isNone) with
  | some empty => empty
  | none =>
    (frames.enum.foldl (optStep refs startIndex) (false, -1, 0)).2.2

/-- The fault branch's `switch (algorithm)`: the victim index, the next
value of `pointer`, and the metadata as updated by a clock sweep (`none`
when a fuel-bounded sweep exhausts its fuel). -/
def selectVictim (algorithm : Algorithm) (refs : List ℕ) (fuel : ℕ)
    (frames : List (Option ℕ)) (meta : List Meta) (pointer : ℕ) (index : ℕ) :
    Option (ℕ × ℕ × List Meta) :=
  match algorithm with
  | .fifo =>
    let r := findFifo frames pointer
    some (r, (r + 1) % frames.length, meta)
  | .lru => some (findLRU frames meta, pointer, meta)
  | .mru => some (findMRU frames meta, pointer, meta)
  | .clock => findClockGo frames fuel meta pointer
  | .wsclock => findWSClockGo frames (index : ℤ) fuel meta pointer
  | .opt => some (findOPT frames refs (index + 1), pointer, meta)

/-- The `refs.forEach` loop of `simulate`, processing the remaining
references; `index` is the position of the head of `rest` in `refs`, and the
timeline is accumulated in reverse.  `fuel` bounds every clock-hand sweep;
a sweep that exhausts it makes the whole simulation return `none`. -/
def simGo (algorithm : Algorithm) (refs : List ℕ) (fuel : ℕ) :
    List ℕ → ℕ → List (Option ℕ) → List Meta → ℕ → ℕ → ℕ → List Step →
    Option SimResult
  | [], _, _, _, _, hits, faults, timeline =>
    some { timeline := timeline.reverse, hits := hits, faults := faults,
           references := refs.length }
  | page :: rest, index, frames, meta, pointer, hits, faults, timeline =>
    match frames.findIdx? (fun o => o = some page) with
    | some hitIndex =>
      simGo algorithm refs fuel rest (index + 1) frames
        (meta.set hitIndex { ref := 1, lastUsed := (index : ℤ) }) pointer
        (hits + 1) faults
        ({ index := index, page := page, frames := frames, fault := false,
           replacedIndex := -1 } :: timeline)
    | none =>
      match selectVictim algorithm refs fuel frames meta pointer index with
      | none => none
      | some (replacedIndex, pointer', meta₁) =>
        simGo algorithm refs fuel rest (index + 1)
          (frames.set replacedIndex (some page))
          (meta₁.set replacedIndex { ref := 1, lastUsed := (index : ℤ) }) pointer'
          hits (faults + 1)
          ({ index := index, page := page,
             frames := frames.set replacedIndex (some page), fault := true,
             replacedIndex := (replacedIndex : ℤ) } :: timeline)

/-- `const simulate = (algorithm, framesCount, refs) => …`. -/
def simulate (algorithm : Algorithm) (framesCount : ℕ) (refs : List ℕ)
    (fuel : ℕ) : Option SimResult :=
  simGo algorithm refs fuel refs 0 (List.replicate framesCount none)
    (List.replicate framesCount { ref := 0, lastUsed := -1 }) 0 0 0 []

/-- `const detectBelady = (refs, frames) => …`: re-run FIFO at `frames` and
`frames + 1` and report `(smaller, larger)` when the larger frame count
faults strictly more (JS `null` becomes `none`; the FIFO runs never consume
fuel, the `Option` matching is only the embedding's plumbing). -/
def detectBelady (refs : List ℕ) (frames : ℕ) (fuel : ℕ) : Option (ℕ × ℕ) :=
  match simulate .fifo frames refs fuel, simulate .fifo (frames + 1) refs fuel with
  | some base, some larger =>
    if base.faults < larger.faults then some (base.faults, larger.faults) else none
  | _, _ => none

/-- The reference string of the spec's Belady-anomaly test:
`7 0 1 2 0 3 0 4 2 3 0 3 2`. -/
def beladyRefs : List ℕ := [7, 0, 1, 2, 0, 3, 0, 4, 2, 3, 0, 3, 2]

/-- The set of resident pages of a frame array. -/
def resident (frames : List (Option ℕ)) : Finset ℕ :=
  (frames.filterMap id).toFinset

/-- The offline minimum fault count over all demand-paging replacement
choices, on reference string `σ` from resident set `S` with `k` frames: a hit
costs nothing; a fault installs into a free slot when `S.card < k` and
otherwise evicts the victim minimizing the remaining cost.  Every concrete
policy's fault count is bounded below by `cost` (`cost_le_simGo_faults`), and
the farthest-in-future policy attains it (`simGo_opt_faults_le_cost`). -/
def cost (k : ℕ) : List ℕ → Finset ℕ → ℕ
  | [], _ => 0
  | r :: σ, S =>
    if r ∈ S then cost k σ S
    else if S.card < k then 1 + cost k σ (insert r S)
    else 1 + (if h : S.Nonempty then
        S.inf' h (fun v => cost k σ (insert r (S.erase v)))
      else cost k σ S)

lemma cost_nil (k : ℕ) (S : Finset ℕ) : cost k [] S = 0 := rfl

lemma cost_cons_mem (k : ℕ) (r : ℕ) (σ : List ℕ) (S : Finset ℕ)
    (h : r ∈ S) : cost k (r :: σ) S = cost k σ S := by
  rw [cost, if_pos h]

lemma cost_cons_room (k : ℕ) (r : ℕ) (σ : List ℕ) (S : Finset ℕ)
    (h : r ∉ S) (hc : S.card < k) :
    cost k (r :: σ) S = 1 + cost k σ (insert r S) := by
  rw [cost, if_neg h, if_pos hc]

lemma cost_cons_full (k : ℕ) (r : ℕ) (σ : List ℕ) (S : Finset ℕ)
    (h : r ∉ S) (hc : ¬ S.card < k) (hne : S.Nonempty) :
    cost k (r :: σ) S
      = 1 + S.inf' hne (fun v => cost k σ (insert r (S.erase v))) := by
  rw [cost, if_neg h, if_neg hc, dif_pos hne]

/-- Deficiency bound: a cache missing `(T \ S).card` of `T`'s pages pays at
most that many extra faults, whatever the reference string. -/
lemma cost_deficiency (k : ℕ) :
    ∀ (σ : List ℕ) (S T : Finset ℕ), S.card ≤ k → T.card ≤ k →
      cost k σ S ≤ cost k σ T + (T \ S).card := by
  intro σ
  induction σ with
  | nil => intro S T _ _; simp [cost_nil]
  | cons r σ ih =>
    intro S T hS hT
    by_cases hST : S = T
    · subst hST
      exact Nat.le_add_right _ _
    by_cases hrS : r ∈ S <;> by_cases hrT : r ∈ T
    · -- r ∈ S, r ∈ T: both hit
      rw [cost_cons_mem k r σ S hrS, cost_cons_mem k r σ T hrT]
      exact ih S T hS hT
    · -- r ∈ S, r ∉ T: S hits, T faults (one unit of slack)
      rw [cost_cons_mem k r σ S hrS]
      by_cases hTc : T.card < k
      · rw [cost_cons_room k r σ T hrT hTc]
        have h1 := ih S (insert r T) hS
          (by rw [Finset.card_insert_of_not_mem hrT]; omega)
        rw [Finset.insert_sdiff_of_mem _ hrS] at h1
        omega
      · have hTne : T.Nonempty := by
          rcases Finset.eq_empty_or_nonempty T with h | h
          · exfalso
            subst h
            simp only [Finset.card_empty] at hTc hT
            have : S = ∅ := Finset.card_eq_zero.mp (by omega)
            subst this
            exact absurd hrS (by simp)
          · exact h
        rw [cost_cons_full k r σ T hrT hTc hTne]
        obtain ⟨w, hw, hinf⟩ := Finset.exists_mem_eq_inf' hTne
          (fun v => cost k σ (insert r (T.erase v)))
        rw [hinf]
        have hsub : (insert r (T.erase w)) \ S ⊆ T \ S := by
          intro x hx
          rw [Finset.mem_sdiff, Finset.mem_insert, Finset.mem_erase] at hx
          rw [Finset.mem_sdiff]
          rcases hx.1 with h | h
          · exact absurd (h ▸ hrS) hx.2
          · exact ⟨h.2, hx.2⟩
        have hcard : (insert r (T.erase w)).card ≤ k := by
          have h1 := Finset.card_insert_le r (T.erase w)
          have h2 := Finset.card_erase_of_mem hw
          have h3 : 1 ≤ T.card := Finset.card_pos.mpr hTne
          omega
        have h1 := ih S (insert r (T.erase w)) hS hcard
        have h2 := Finset.card_le_card hsub
        omega
    · -- r ∉ S, r ∈ T: S faults, T hits; the missing page is r itself
      rw [cost_cons_mem k r σ T hrT]
      have hrTS : r ∈ T \ S := Finset.mem_sdiff.mpr ⟨hrT, hrS⟩
      have hpos : 1 ≤ (T \ S).card :=
        Finset.card_pos.mpr ⟨r, hrTS⟩
      by_cases hSc : S.card < k
      · rw [cost_cons_room k r σ S hrS hSc]
        have heq : T \ (insert r S) = (T \ S).erase r := by
          ext x
          rw [Finset.mem_sdiff, Finset.mem_insert, Finset.mem_erase,
            Finset.mem_sdiff]
          tauto
        have h1 := ih (insert r S) T
          (by rw [Finset.card_insert_of_not_mem hrS]; omega) hT
        rw [heq, Finset.card_erase_of_mem hrTS] at h1
        omega
      · have hk : 1 ≤ k := by
          have : 1 ≤ T.card := Finset.card_pos.mpr ⟨r, hrT⟩
          omega
        have hSne : S.Nonempty := by
          rw [← Finset.card_pos]
          omega
        rw [cost_cons_full k r σ S hrS hSc hSne]
        have hnsub : ¬ S ⊆ T := by
          intro hsub
          exact hST (Finset.eq_of_subset_of_card_le hsub (by omega))
        obtain ⟨v₀, hv₀S, hv₀T⟩ := Finset.not_subset.mp hnsub
        have hle := Finset.inf'_le
          (fun v => cost k σ (insert r (S.erase v))) hv₀S
        have hsub : T \ (insert r (S.erase v₀)) ⊆ (T \ S).erase r := by
          intro x hx
          rw [Finset.mem_sdiff, Finset.mem_insert, Finset.mem_erase] at hx
          rw [Finset.mem_erase, Finset.mem_sdiff]
          push_neg at hx
          refine ⟨hx.2.1, hx.1, fun hxS => ?_⟩
          rcases eq_or_ne x v₀ with h | h
          · exact hv₀T (h ▸ hx.1)
          · exact hx.2.2 h hxS
        have hcard : (insert r (S.erase v₀)).card ≤ k := by
          have h1 := Finset.card_insert_le r (S.erase v₀)
          have h2 := Finset.card_erase_of_mem hv₀S
          omega
        have h1 := ih (insert r (S.erase v₀)) T hcard hT
        have h2 := Finset.card_le_card hsub
        rw [Finset.card_erase_of_mem hrTS] at h2
        omega
    · -- r ∉ S, r ∉ T: both fault
      have hTside : ∃ T', r ∈ T' ∧ T' \ {r} ⊆ T ∧ T'.card ≤ k ∧
          cost k (r :: σ) T = 1 + cost k σ T' := by
        by_cases hTc : T.card < k
        · refine ⟨insert r T, Finset.mem_insert_self _ _, ?_, ?_, ?_⟩
          · intro x hx
            rw [Finset.mem_sdiff, Finset.mem_insert, Finset.mem_singleton] at hx
            tauto
          · rw [Finset.card_insert_of_not_mem hrT]; omega
          · exact cost_cons_room k r σ T hrT hTc
        · have hTne : T.Nonempty := by
            rcases Finset.eq_empty_or_nonempty T with h | h
            · exfalso
              subst h
              simp only [Finset.card_empty] at hTc hT
              exact hST (by
                rw [Finset.card_eq_zero.mp (show S.card = 0 by omega)])
            · exact h
          obtain ⟨w, hw, hinf⟩ := Finset.exists_mem_eq_inf' hTne
            (fun v => cost k σ (insert r (T.erase v)))
          refine ⟨insert r (T.erase w), Finset.mem_insert_self _ _, ?_, ?_, ?_⟩
          · intro x hx
            rw [Finset.mem_sdiff, Finset.mem_insert, Finset.mem_erase,
              Finset.mem_singleton] at hx
            tauto
          · have h1 := Finset.card_insert_le r (T.erase w)
            have h2 := Finset.card_erase_of_mem hw
            have h3 : 1 ≤ T.card := Finset.card_pos.mpr hTne
            omega
          · rw [cost_cons_full k r σ T hrT hTc hTne, hinf]
      obtain ⟨T', hrT', hT'sub, hT'card, hT'cost⟩ := hTside
      rw [hT'cost]
      by_cases hSc : S.card < k
      · rw [cost_cons_room k r σ S hrS hSc]
        have hsub : T' \ (insert r S) ⊆ T \ S := by
          intro x hx
          rw [Finset.mem_sdiff, Finset.mem_insert] at hx
          push_neg at hx
          rw [Finset.mem_sdiff]
          refine ⟨?_, hx.2.2⟩
          have := hT'sub (Finset.mem_sdiff.mpr
            ⟨hx.1, by rw [Finset.mem_singleton]; exact hx.2.1⟩)
          exact this
        have h1 := ih (insert r S) T'
          (by rw [Finset.card_insert_of_not_mem hrS]; omega) hT'card
        have h2 := Finset.card_le_card hsub
        omega
      · have hk : 1 ≤ k := by
          have : 1 ≤ T'.card := Finset.card_pos.mpr ⟨r, hrT'⟩
          omega
        have hSne : S.Nonempty := by
          rw [← Finset.card_pos]; omega
        rw [cost_cons_full k r σ S hrS hSc hSne]
        have hnsub : ¬ S ⊆ T' := by
          intro hsub
          have hsub' : S ⊆ T'.erase r := by
            intro x hx
            rw [Finset.mem_erase]
            exact ⟨fun h => hrS (h ▸ hx), hsub hx⟩
          have h1 := Finset.card_le_card hsub'
          rw [Finset.card_erase_of_mem hrT'] at h1
          omega
        obtain ⟨v₀, hv₀S, hv₀T'⟩ := Finset.not_subset.mp hnsub
        have hle := Finset.inf'_le
          (fun v => cost k σ (insert r (S.erase v))) hv₀S
        have hsub : T' \ (insert r (S.erase v₀)) ⊆ T \ S := by
          intro x hx
          rw [Finset.mem_sdiff, Finset.mem_insert, Finset.mem_erase] at hx
          push_neg at hx
          rw [Finset.mem_sdiff]
          have hxT : x ∈ T := hT'sub (Finset.mem_sdiff.mpr
            ⟨hx.1, by rw [Finset.mem_singleton]; exact hx.2.1⟩)
          refine ⟨hxT, fun hxS => ?_⟩
          rcases eq_or_ne x v₀ with h | h
          · exact hv₀T' (h ▸ hx.1)
          · exact hx.2.2 h hxS
        have hcard : (insert r (S.erase v₀)).card ≤ k := by
          have h1 := Finset.card_insert_le r (S.erase v₀)
          have h2 := Finset.card_erase_of_mem hv₀S
          omega
        have h1 := ih (insert r (S.erase v₀)) T' hcard hT'card
        have h2 := Finset.card_le_card hsub
        omega

/-- The position of the first occurrence of `p` in `σ` (`σ.length` when `p`
never occurs): the next-use distance that Belady's policy compares. -/
def firstUse : List ℕ → ℕ → ℕ
  | [], _ => 0
  | r :: σ, p => if r = p then 0 else firstUse σ p + 1

lemma firstUse_le_length : ∀ (σ : List ℕ) (p : ℕ), firstUse σ p ≤ σ.length := by
  intro σ p
  induction σ with
  | nil => simp [firstUse]
  | cons r σ ih =>
    by_cases h : r = p
    · simp [firstUse, h]
    · simp only [firstUse, if_neg h, List.length_cons]
      omega

/-- Exchange bound: with the same companions `D`, retaining the page whose
next use comes sooner (`b`) never costs more than retaining the one whose
next use comes later (`a`). -/
lemma cost_exchange (k : ℕ) :
    ∀ (σ : List ℕ) (D : Finset ℕ) (a b : ℕ),
      a ∉ D → b ∉ D → a ≠ b → D.card + 1 ≤ k →
      firstUse σ b ≤ firstUse σ a →
      cost k σ (insert b D) ≤ cost k σ (insert a D) := by
  intro σ
  induction σ with
  | nil => intro D a b _ _ _ _ _; simp [cost_nil]
  | cons r σ ih =>
    intro D a b haD hbD hab hk huse
    have hSc : (insert b D).card = D.card + 1 := Finset.card_insert_of_not_mem hbD
    have hTc : (insert a D).card = D.card + 1 := Finset.card_insert_of_not_mem haD
    by_cases hra : r = a
    · exfalso
      subst hra
      have h1 : firstUse (r :: σ) r = 0 := by simp [firstUse]
      have h2 : firstUse (r :: σ) b = firstUse σ b + 1 := by simp [firstUse, hab]
      omega
    by_cases hrb : r = b
    · -- the sooner page is referenced now: `S` hits while `T` faults
      subst hrb
      rw [cost_cons_mem k r σ _ (Finset.mem_insert_self r D)]
      have hrT : r ∉ insert a D := by
        rw [Finset.mem_insert]; push_neg; exact ⟨hra, hbD⟩
      by_cases hfull : (insert a D).card < k
      · rw [cost_cons_room k r σ _ hrT hfull]
        have hcard1 : (insert r D).card ≤ k := by omega
        have hcard2 : (insert r (insert a D)).card ≤ k := by
          have := Finset.card_insert_le r (insert a D)
          omega
        have hd := cost_deficiency k σ (insert r D) (insert r (insert a D))
          hcard1 hcard2
        have hsub : insert r (insert a D) \ insert r D ⊆ {a} := by
          intro x hx
          simp only [Finset.mem_sdiff, Finset.mem_insert, not_or] at hx
          rw [Finset.mem_singleton]
          rcases hx.1 with h | h | h
          · exact absurd h hx.2.1
          · exact h
          · exact absurd h hx.2.2
        have hA := Finset.card_le_card hsub
        rw [Finset.card_singleton] at hA
        omega
      · have hTne : (insert a D).Nonempty := ⟨a, Finset.mem_insert_self a D⟩
        rw [cost_cons_full k r σ _ hrT hfull hTne]
        obtain ⟨w, hw, hinf⟩ := Finset.exists_mem_eq_inf' hTne
          (fun v => cost k σ (insert r ((insert a D).erase v)))
        rw [hinf]
        have hcard1 : (insert r D).card ≤ k := by omega
        have hcard2 : (insert r ((insert a D).erase w)).card ≤ k := by
          have h1 := Finset.card_insert_le r ((insert a D).erase w)
          have h2 := Finset.card_erase_of_mem hw
          omega
        have hd := cost_deficiency k σ (insert r D)
          (insert r ((insert a D).erase w)) hcard1 hcard2
        have hsub : insert r ((insert a D).erase w) \ insert r D ⊆ {a} := by
          intro x hx
          simp only [Finset.mem_sdiff, Finset.mem_insert, Finset.mem_erase,
            not_or] at hx
          rw [Finset.mem_singleton]
          rcases hx.1 with h | ⟨-, h | h⟩
          · exact absurd h hx.2.1
          · exact h
          · exact absurd h hx.2.2
        have hA := Finset.card_le_card hsub
        rw [Finset.card_singleton] at hA
        omega
    by_cases hrD : r ∈ D
    · rw [cost_cons_mem k r σ _ (Finset.mem_insert_of_mem hrD),
        cost_cons_mem k r σ _ (Finset.mem_insert_of_mem hrD)]
      refine ih D a b haD hbD hab hk ?_
      have h1 : firstUse (r :: σ) b = firstUse σ b + 1 := by simp [firstUse, hrb]
      have h2 : firstUse (r :: σ) a = firstUse σ a + 1 := by simp [firstUse, hra]
      omega
    · -- a fresh page: both sides fault
      have hrS : r ∉ insert b D := by
        rw [Finset.mem_insert]; push_neg; exact ⟨hrb, hrD⟩
      have hrT : r ∉ insert a D := by
        rw [Finset.mem_insert]; push_neg; exact ⟨hra, hrD⟩
      have huse' : firstUse σ b ≤ firstUse σ a := by
        have h1 : firstUse (r :: σ) b = firstUse σ b + 1 := by simp [firstUse, hrb]
        have h2 : firstUse (r :: σ) a = firstUse σ a + 1 := by simp [firstUse, hra]
        omega
      by_cases hroom : (insert b D).card < k
      · have hDk : D.card + 1 < k := by omega
        rw [cost_cons_room k r σ _ hrS hroom,
          cost_cons_room k r σ _ hrT (by omega)]
        rw [Finset.Insert.comm r b D, Finset.Insert.comm r a D]
        refine Nat.add_le_add_left (ih (insert r D) a b ?_ ?_ hab ?_ huse') 1
        · rw [Finset.mem_insert]; push_neg
          exact ⟨fun h => hra h.symm, haD⟩
        · rw [Finset.mem_insert]; push_neg
          exact ⟨fun h => hrb h.symm, hbD⟩
        · rw [Finset.card_insert_of_not_mem hrD]; omega
      · have hSne : (insert b D).Nonempty := ⟨b, Finset.mem_insert_self b D⟩
        have hTne : (insert a D).Nonempty := ⟨a, Finset.mem_insert_self a D⟩
        have hTfull : ¬ (insert a D).card < k := by omega
        rw [cost_cons_full k r σ _ hrS hroom hSne,
          cost_cons_full k r σ _ hrT hTfull hTne]
        refine Nat.add_le_add_left ?_ 1
        obtain ⟨w, hw, hinf⟩ := Finset.exists_mem_eq_inf' hTne
          (fun v => cost k σ (insert r ((insert a D).erase v)))
        rw [hinf]
        by_cases hwa : w = a
        · subst hwa
          rw [Finset.erase_insert haD]
          have hble := Finset.inf'_le
            (fun v => cost k σ (insert r ((insert b D).erase v)))
            (Finset.mem_insert_self b D)
          rw [Finset.erase_insert hbD] at hble
          exact hble
        · have hwD : w ∈ D := by
            rcases Finset.mem_insert.mp hw with h | h
            · exact absurd h hwa
            · exact h
          have hwb : w ≠ b := fun h => hbD (h ▸ hwD)
          have hwS : w ∈ insert b D := Finset.mem_insert_of_mem hwD
          have hle := Finset.inf'_le
            (fun v => cost k σ (insert r ((insert b D).erase v))) hwS
          refine le_trans hle ?_
          rw [Finset.erase_insert_of_ne hwb.symm, Finset.erase_insert_of_ne
            (fun h : a = w => hwa h.symm),
            Finset.Insert.comm r b, Finset.Insert.comm r a]
          refine ih (insert r (D.erase w)) a b ?_ ?_ hab ?_ huse'
          · rw [Finset.mem_insert]; push_neg
            exact ⟨fun h => hra h.symm, fun h => haD (Finset.mem_of_mem_erase h)⟩
          · rw [Finset.mem_insert]; push_neg
            exact ⟨fun h => hrb h.symm, fun h => hbD (Finset.mem_of_mem_erase h)⟩
          · have h1 := Finset.card_insert_le r (D.erase w)
            have h2 := Finset.card_erase_of_mem hwD
            have h3 : 1 ≤ D.card := Finset.card_pos.mpr ⟨w, hwD⟩
            omega

lemma firstUse_eq_of_findIdx? (p : ℕ) :
    ∀ (σ : List ℕ) (i : ℕ), σ.findIdx? (fun x => x = p) = some i →
      firstUse σ p = i ∧ i < σ.length := by
  intro σ
  induction σ with
  | nil => intro i h; simp at h
  | cons r σ ih =>
    intro i h
    simp only [List.findIdx?_cons, List.findIdx?_succ, decide_eq_true_eq] at h
    by_cases hr : r = p
    · rw [if_pos hr] at h
      injection h with h
      subst h
      exact ⟨by simp [firstUse, hr], by simp⟩
    · rw [if_neg hr] at h
      cases hidx : σ.findIdx? (fun x => x = p) with
      | none => rw [hidx] at h; simp at h
      | some j =>
        rw [hidx] at h
        simp at h
        obtain ⟨h1, h2⟩ := ih j hidx
        refine ⟨?_, ?_⟩
        · simp only [firstUse, if_neg hr, h1]
          omega
        · simp only [List.length_cons]
          omega

lemma firstUse_eq_length_of_findIdx?_none (p : ℕ) :
    ∀ σ : List ℕ, σ.findIdx? (fun x => x = p) = none → firstUse σ p = σ.length := by
  intro σ
  induction σ with
  | nil => intro _; rfl
  | cons r σ ih =>
    intro h
    simp only [List.findIdx?_cons, List.findIdx?_succ, decide_eq_true_eq] at h
    by_cases hr : r = p
    · rw [if_pos hr] at h; exact absurd h (by simp)
    · rw [if_neg hr] at h
      cases hidx : σ.findIdx? (fun x => x = p) with
      | none => simp [firstUse, hr, ih hidx]
      | some j => rw [hidx] at h; simp at h

lemma indexOfFrom_eq_neg_one (refs : List ℕ) (s p : ℕ)
    (h : indexOfFrom refs s p = -1) :
    firstUse (refs.drop s) p = (refs.drop s).length := by
  cases hidx : (refs.drop s).findIdx? (fun x => x = p) with
  | none => exact firstUse_eq_length_of_findIdx?_none p _ hidx
  | some i =>
    exfalso
    simp only [indexOfFrom, hidx] at h
    omega

lemma indexOfFrom_found (refs : List ℕ) (s p : ℕ)
    (h : indexOfFrom refs s p ≠ -1) :
    indexOfFrom refs s p = (s : ℤ) + firstUse (refs.drop s) p ∧
      firstUse (refs.drop s) p < (refs.drop s).length := by
  cases hidx : (refs.drop s).findIdx? (fun x => x = p) with
  | none => exact absurd (by simp [indexOfFrom, hidx]) h
  | some i =>
    obtain ⟨h1, h2⟩ := firstUse_eq_of_findIdx? p _ i hidx
    refine ⟨?_, h1 ▸ h2⟩
    simp only [indexOfFrom, hidx, h1]
    push_cast
    ring

lemma indexOfFrom_cases (refs : List ℕ) (s p : ℕ) :
    indexOfFrom refs s p = -1 ∨ 0 ≤ indexOfFrom refs s p := by
  cases hidx : (refs.drop s).findIdx? (fun x => x = p) with
  | none => left; simp [indexOfFrom, hidx]
  | some i => right; simp only [indexOfFrom, hidx]; positivity

lemma perm_toFinset {l₁ l₂ : List ℕ} (h : List.Perm l₁ l₂) :
    l₁.toFinset = l₂.toFinset := by
  ext x; simp [List.mem_toFinset, h.mem_iff]

lemma mem_resident (frames : List (Option ℕ)) (p : ℕ) :
    p ∈ resident frames ↔ some p ∈ frames := by
  simp [resident]

lemma filterMap_set_none_perm :
    ∀ (frames : List (Option ℕ)) (v p : ℕ), v < frames.length →
      frames.getD v none = none →
      List.Perm ((frames.set v (some p)).filterMap id)
        (p :: frames.filterMap id) := by
  intro frames
  induction frames with
  | nil => intro v p hv _; simp at hv
  | cons hd tl ih =>
    intro v p hv h
    cases v with
    | zero =>
      have hhd : hd = none := by simpa using h
      subst hhd
      simp [List.set_cons_zero, List.filterMap_cons]
    | succ v =>
      have hv' : v < tl.length := by simpa using hv
      have h' : tl.getD v none = none := by simpa using h
      cases hd with
      | none =>
        simpa [List.set_cons_succ, List.filterMap_cons] using ih v p hv' h'
      | some q =>
        simp only [List.set_cons_succ, List.filterMap_cons, id]
        exact ((ih v p hv' h').cons q).trans (List.Perm.swap p q _)

lemma filterMap_set_some_perm :
    ∀ (frames : List (Option ℕ)) (v p q : ℕ), v < frames.length →
      frames.getD v none = some q →
      List.Perm (q :: (frames.set v (some p)).filterMap id)
        (p :: frames.filterMap id) := by
  intro frames
  induction frames with
  | nil => intro v p q hv _; simp at hv
  | cons hd tl ih =>
    intro v p q hv h
    cases v with
    | zero =>
      have hhd : hd = some q := by simpa using h
      subst hhd
      simp only [List.set_cons_zero, List.filterMap_cons, id]
      exact List.Perm.swap p q _
    | succ v =>
      have hv' : v < tl.length := by simpa using hv
      have h' : tl.getD v none = some q := by simpa using h
      cases hd with
      | none =>
        simpa [List.set_cons_succ, List.filterMap_cons] using ih v p q hv' h'
      | some q' =>
        simp only [List.set_cons_succ, List.filterMap_cons, id]
        refine (List.Perm.swap q' q _).trans ?_
        refine ((ih v p q hv' h').cons q').trans ?_
        exact List.Perm.swap p q' _

lemma resident_set_none (frames : List (Option ℕ)) (v p : ℕ)
    (hv : v < frames.length) (h : frames.getD v none = none) :
    resident (frames.set v (some p)) = insert p (resident frames) := by
  have hts := perm_toFinset (filterMap_set_none_perm frames v p hv h)
  simpa [resident, List.toFinset_cons] using hts

lemma nodup_set_none (frames : List (Option ℕ)) (v p : ℕ)
    (hv : v < frames.length) (h : frames.getD v none = none)
    (hnd : (frames.filterMap id).Nodup) (hp : some p ∉ frames) :
    ((frames.set v (some p)).filterMap id).Nodup := by
  rw [(filterMap_set_none_perm frames v p hv h).nodup_iff, List.nodup_cons]
  exact ⟨by simpa using hp, hnd⟩

lemma getD_mem_of_lt (frames : List (Option ℕ)) (v : ℕ)
    (hv : v < frames.length) : frames.getD v none ∈ frames := by
  rw [List.getD_eq_getElem frames none hv]
  exact List.get_mem frames v hv

lemma resident_set_some (frames : List (Option ℕ)) (v p q : ℕ)
    (hv : v < frames.length) (h : frames.getD v none = some q)
    (hnd : (frames.filterMap id).Nodup) (hp : some p ∉ frames) :
    resident (frames.set v (some p)) = insert p ((resident frames).erase q) ∧
      ((frames.set v (some p)).filterMap id).Nodup := by
  have hperm := filterMap_set_some_perm frames v p q hv h
  have hpF : p ∉ frames.filterMap id := by simpa using hp
  have hndp : (p :: frames.filterMap id).Nodup := List.nodup_cons.mpr ⟨hpF, hnd⟩
  have hndq : (q :: (frames.set v (some p)).filterMap id).Nodup :=
    hperm.nodup_iff.mpr hndp
  have hqnot : q ∉ (frames.set v (some p)).filterMap id :=
    (List.nodup_cons.mp hndq).1
  refine ⟨?_, (List.nodup_cons.mp hndq).2⟩
  have hts : insert q (resident (frames.set v (some p)))
      = insert p (resident frames) := by
    have := perm_toFinset hperm
    simpa [resident, List.toFinset_cons] using this
  have hq : q ∈ resident frames := by
    rw [mem_resident, ← h]
    exact getD_mem_of_lt frames v hv
  have hpq : p ≠ q := by
    intro he
    subst he
    exact hp ((mem_resident frames p).mp hq)
  have hqset : q ∉ resident (frames.set v (some p)) := by
    simpa [resident] using hqnot
  calc resident (frames.set v (some p))
      = (insert q (resident (frames.set v (some p)))).erase q := by
        rw [Finset.erase_insert hqset]
    _ = (insert p (resident frames)).erase q := by rw [hts]
    _ = insert p ((resident frames).erase q) := Finset.erase_insert_of_ne hpq

lemma card_resident_of_nodup (frames : List (Option ℕ))
    (hnd : (frames.filterMap id).Nodup) :
    (resident frames).card = (frames.filterMap id).length :=
  List.toFinset_card_of_nodup hnd

lemma filterMap_length_lt (frames : List (Option ℕ)) (v : ℕ)
    (hv : v < frames.length) (h : frames.getD v none = none) :
    (frames.filterMap id).length < frames.length := by
  have h1 := (filterMap_set_none_perm frames v 0 hv h).length_eq
  have h2 := List.length_filterMap_le id (frames.set v (some 0))
  rw [List.length_set] at h2
  simp only [List.length_cons] at h1
  omega

lemma filterMap_length_full (frames : List (Option ℕ))
    (h : ∀ o ∈ frames, o.isNone = false) :
    (frames.filterMap id).length = frames.length := by
  induction frames with
  | nil => rfl
  | cons hd tl ih =>
    cases hd with
    | none => exact absurd (h none (by simp)) (by simp)
    | some q =>
      simp only [List.filterMap_cons, id, List.length_cons]
      rw [ih (fun o ho => h o (List.mem_cons_of_mem _ ho))]

lemma filterMap_replicate_none (k : ℕ) :
    (List.replicate k (none : Option ℕ)).filterMap id = [] := by
  induction k with
  | zero => rfl
  | succ k ih => simp [List.replicate_succ, List.filterMap_cons, ih]

lemma resident_replicate (k : ℕ) :
    resident (List.replicate k none) = ∅ := by
  simp [resident, filterMap_replicate_none]

lemma foldl_preserve {α β : Type} (P : β → Prop) (f : β → α → β) :
    ∀ (l : List α) (b : β), P b → (∀ c x, x ∈ l → P c → P (f c x)) →
      P (l.foldl f b) := by
  intro l
  induction l with
  | nil => intro b hb _; exact hb
  | cons x l ih =>
    intro b hb hstep
    exact ih (f b x) (hstep b x (List.mem_cons_self x l) hb)
      (fun c y hy => hstep c y (List.mem_cons_of_mem x hy))

lemma enumFrom_fst_lt {α : Type} :
    ∀ (l : List α) (n : ℕ) (x : ℕ × α), x ∈ l.enumFrom n →
      x.1 < n + l.length := by
  intro l
  induction l with
  | nil => intro n x h; simp at h
  | cons hd tl ih =>
    intro n x h
    rw [List.enumFrom_cons] at h
    rcases List.mem_cons.mp h with h | h
    · subst h; simp
    · have := ih (n + 1) x h
      simp only [List.length_cons]
      omega

lemma enum_fst_lt {α : Type} (l : List α) (x : ℕ × α) (h : x ∈ l.enum) :
    x.1 < l.length := by
  have := enumFrom_fst_lt l 0 x (by simpa [List.enum] using h)
  omega

lemma mem_enumFrom_getD :
    ∀ (l : List (Option ℕ)) (n i : ℕ) (o : Option ℕ), (i, o) ∈ l.enumFrom n →
      ∃ j, i = n + j ∧ j < l.length ∧ l.getD j none = o := by
  intro l
  induction l with
  | nil => intro n i o h; simp at h
  | cons hd tl ih =>
    intro n i o h
    rw [List.enumFrom_cons] at h
    rcases List.mem_cons.mp h with h | h
    · injection h with h1 h2
      exact ⟨0, by omega, by simp, by simp [h2]⟩
    · obtain ⟨j, hi, hj, hg⟩ := ih (n + 1) i o h
      refine ⟨j + 1, by omega, by simp only [List.length_cons]; omega, ?_⟩
      simpa using hg

lemma mem_enumFrom_of_mem {α : Type} :
    ∀ (l : List α) (n : ℕ) (x : α), x ∈ l → ∃ i, (i, x) ∈ l.enumFrom n := by
  intro l
  induction l with
  | nil => intro n x h; simp at h
  | cons hd tl ih =>
    intro n x h
    rcases List.mem_cons.mp h with h | h
    · subst h
      exact ⟨n, by rw [List.enumFrom_cons]; exact List.mem_cons_self _ _⟩
    · obtain ⟨i, hi⟩ := ih (n + 1) x h
      exact ⟨i, by rw [List.enumFrom_cons]; exact List.mem_cons_of_mem _ hi⟩

lemma findFifo_lt (frames : List (Option ℕ)) (pointer : ℕ)
    (hp : pointer < frames.length) : findFifo frames pointer < frames.length := by
  unfold findFifo
  cases hidx : frames.findIdx? (fun o => o.isNone) with
  | none => exact hp
  | some e =>
    rw [List.findIdx?_eq_some_iff_getElem] at hidx
    obtain ⟨hlt, -, -⟩ := hidx
    exact hlt

lemma findLRU_lt (frames : List (Option ℕ)) (meta : List Meta)
    (hk : 0 < frames.length) (hm : meta.length = frames.length) :
    findLRU frames meta < frames.length := by
  unfold findLRU
  cases hidx : frames.findIdx? (fun o => o.isNone) with
  | some e =>
    rw [List.findIdx?_eq_some_iff_getElem] at hidx
    obtain ⟨hlt, -, -⟩ := hidx
    exact hlt
  | none =>
    refine foldl_preserve (fun acc : ℤ × ℕ => acc.2 < frames.length) _
      meta.enum ((0 : ℤ), 0) hk ?_
    intro c x hx hc
    have hx1 : x.1 < frames.length := by
      have := enum_fst_lt meta x hx
      omega
    split
    · exact hx1
    · exact hc

lemma findMRU_lt (frames : List (Option ℕ)) (meta : List Meta)
    (hk : 0 < frames.length) (hm : meta.length = frames.length) :
    findMRU frames meta < frames.length := by
  unfold findMRU
  cases hidx : frames.findIdx? (fun o => o.isNone) with
  | some e =>
    rw [List.findIdx?_eq_some_iff_getElem] at hidx
    obtain ⟨hlt, -, -⟩ := hidx
    exact hlt
  | none =>
    refine foldl_preserve (fun acc : Bool × ℤ × ℕ => acc.2.2 < frames.length) _
      meta.enum (false, 0, 0) hk ?_
    intro c x hx hc
    have hx1 : x.1 < frames.length := by
      have := enum_fst_lt meta x hx
      omega
    split
    · exact hx1
    · exact hc

lemma findOPT_lt (frames : List (Option ℕ)) (refs : List ℕ) (s : ℕ)
    (hk : 0 < frames.length) : findOPT frames refs s < frames.length := by
  unfold findOPT
  cases hidx : frames.findIdx? (fun o => o.isNone) with
  | some e =>
    rw [List.findIdx?_eq_some_iff_getElem] at hidx
    obtain ⟨hlt, -, -⟩ := hidx
    exact hlt
  | none =>
    refine foldl_preserve (fun acc : Bool × ℤ × ℕ => acc.2.2 < frames.length) _
      frames.enum (false, -1, 0) hk ?_
    intro c x hx hc
    have hx1 : x.1 < frames.length := enum_fst_lt frames x hx
    dsimp only [optStep]
    split
    · exact hx1
    · split
      · exact hx1
      · exact hc

lemma findClockGo_spec (frames : List (Option ℕ)) (hk : 0 < frames.length) :
    ∀ (fuel : ℕ) (meta : List Meta) (p v p' : ℕ) (meta' : List Meta),
      p < frames.length → meta.length = frames.length →
      findClockGo frames fuel meta p = some (v, p', meta') →
      v < frames.length ∧ p' < frames.length ∧ meta'.length = frames.length := by
  intro fuel
  induction fuel with
  | zero =>
    intro meta p v p' meta' _ _ h
    exact absurd h (by rw [findClockGo]; simp)
  | succ fuel ih =>
    intro meta p v p' meta' hp hm h
    rw [findClockGo] at h
    by_cases h1 : (frames.getD p none).isNone = true
    · rw [if_pos h1] at h
      simp only [Option.some.injEq, Prod.mk.injEq] at h
      obtain ⟨rfl, rfl, rfl⟩ := h
      exact ⟨hp, Nat.mod_lt _ hk, hm⟩
    · rw [if_neg h1] at h
      by_cases h2 : (meta.getD p default).ref = 0
      · rw [if_pos h2] at h
        simp only [Option.some.injEq, Prod.mk.injEq] at h
        obtain ⟨rfl, rfl, rfl⟩ := h
        exact ⟨hp, Nat.mod_lt _ hk, hm⟩
      · rw [if_neg h2] at h
        exact ih _ _ v p' meta' (Nat.mod_lt _ hk)
          (by rw [List.length_set]; exact hm) h

lemma findWSClockGo_spec (frames : List (Option ℕ)) (currentTime : ℤ)
    (hk : 0 < frames.length) :
    ∀ (fuel : ℕ) (meta : List Meta) (p v p' : ℕ) (meta' : List Meta),
      p < frames.length → meta.length = frames.length →
      findWSClockGo frames currentTime fuel meta p = some (v, p', meta') →
      v < frames.length ∧ p' < frames.length ∧ meta'.length = frames.length := by
  intro fuel
  induction fuel with
  | zero =>
    intro meta p v p' meta' _ _ h
    exact absurd h (by rw [findWSClockGo]; simp)
  | succ fuel ih =>
    intro meta p v p' meta' hp hm h
    rw [findWSClockGo] at h
    by_cases h1 : (frames.getD p none).isNone = true
    · rw [if_pos h1] at h
      simp only [Option.some.injEq, Prod.mk.injEq] at h
      obtain ⟨rfl, rfl, rfl⟩ := h
      exact ⟨hp, Nat.mod_lt _ hk, hm⟩
    · rw [if_neg h1] at h
      by_cases h2 : (meta.getD p default).ref = 1
      · rw [if_pos h2] at h
        exact ih _ _ v p' meta' (Nat.mod_lt _ hk)
          (by rw [List.length_set]; exact hm) h
      · rw [if_neg h2] at h
        by_cases h3 : 4 < currentTime - (meta.getD p default).lastUsed
        · rw [if_pos h3] at h
          simp only [Option.some.injEq, Prod.mk.injEq] at h
          obtain ⟨rfl, rfl, rfl⟩ := h
          exact ⟨hp, Nat.mod_lt _ hk, hm⟩
        · rw [if_neg h3] at h
          exact ih _ _ v p' meta' (Nat.mod_lt _ hk) hm h

lemma selectVictim_spec (algorithm : Algorithm) (refs : List ℕ) (fuel : ℕ)
    (frames : List (Option ℕ)) (meta : List Meta) (pointer index : ℕ)
    (v p' : ℕ) (meta' : List Meta)
    (hk : 0 < frames.length) (hp : pointer < frames.length)
    (hm : meta.length = frames.length)
    (h : selectVictim algorithm refs fuel frames meta pointer index
      = some (v, p', meta')) :
    v < frames.length ∧ p' < frames.length ∧ meta'.length = frames.length := by
  cases algorithm with
  | fifo =>
    simp only [selectVictim, Option.some.injEq, Prod.mk.injEq] at h
    obtain ⟨rfl, rfl, rfl⟩ := h
    exact ⟨findFifo_lt frames pointer hp, Nat.mod_lt _ hk, hm⟩
  | lru =>
    simp only [selectVictim, Option.some.injEq, Prod.mk.injEq] at h
    obtain ⟨rfl, rfl, rfl⟩ := h
    exact ⟨findLRU_lt frames meta hk hm, hp, hm⟩
  | mru =>
    simp only [selectVictim, Option.some.injEq, Prod.mk.injEq] at h
    obtain ⟨rfl, rfl, rfl⟩ := h
    exact ⟨findMRU_lt frames meta hk hm, hp, hm⟩
  | clock =>
    simp only [selectVictim] at h
    exact findClockGo_spec frames hk fuel meta pointer v p' meta' hp hm h
  | wsclock =>
    simp only [selectVictim] at h
    exact findWSClockGo_spec frames (index : ℤ) hk fuel meta pointer v p' meta' hp hm h
  | opt =>
    simp only [selectVictim, Option.some.injEq, Prod.mk.injEq] at h
    obtain ⟨rfl, rfl, rfl⟩ := h
    exact ⟨findOPT_lt frames refs (index + 1) hk, hp, hm⟩

/-- The scan accumulator already beats page `pg`: either the infinity flag is
set, or `pg`'s next use was found and does not exceed the accumulated one. -/
def optDominates (refs : List ℕ) (s : ℕ) (acc : Bool × ℤ × ℕ) (pg : ℕ) : Prop :=
  acc.1 = true ∨ (indexOfFrom refs s pg ≠ -1 ∧ indexOfFrom refs s pg ≤ acc.2.1)

/-- The scan accumulator points at a real frame whose page realises the
accumulated next-use value (or the infinity flag). -/
def optGood (refs : List ℕ) (s : ℕ) (frames : List (Option ℕ))
    (acc : Bool × ℤ × ℕ) : Prop :=
  acc.2.2 < frames.length ∧
    ∃ qq, frames.getD acc.2.2 none = some qq ∧
      (if acc.1 = true then indexOfFrom refs s qq = -1
       else indexOfFrom refs s qq = acc.2.1)

lemma optStep_good (refs : List ℕ) (s : ℕ) (frames : List (Option ℕ))
    (acc : Bool × ℤ × ℕ) (i : ℕ) (pg : ℕ)
    (hi : i < frames.length) (hgd : frames.getD i none = some pg)
    (hg : optGood refs s frames acc) :
    optGood refs s frames (optStep refs s acc (i, some pg)) := by
  simp only [optStep]
  by_cases h1 : indexOfFrom refs s pg = -1
  · rw [if_pos h1]
    exact ⟨hi, pg, hgd, by rw [if_pos rfl]; exact h1⟩
  · rw [if_neg h1]
    by_cases h2 : acc.1 = false ∧ acc.2.1 < indexOfFrom refs s pg
    · rw [if_pos h2]
      refine ⟨hi, pg, hgd, ?_⟩
      rw [if_neg (by simp)]
    · rw [if_neg h2]
      exact hg

lemma optStep_mono (refs : List ℕ) (s : ℕ) (acc : Bool × ℤ × ℕ)
    (x : ℕ × Option ℕ) (pg' : ℕ) (hdom : optDominates refs s acc pg') :
    optDominates refs s (optStep refs s acc x) pg' := by
  obtain ⟨i, o⟩ := x
  simp only [optStep]
  cases o with
  | none =>
    rw [if_pos rfl]
    exact Or.inl rfl
  | some pg =>
    by_cases h1 : indexOfFrom refs s pg = -1
    · rw [if_pos h1]
      exact Or.inl rfl
    · rw [if_neg h1]
      by_cases h2 : acc.1 = false ∧ acc.2.1 < indexOfFrom refs s pg
      · rw [if_pos h2]
        rcases hdom with h | ⟨hne, hle⟩
        · exact absurd h (by simp [h2.1])
        · exact Or.inr ⟨hne, le_trans hle (le_of_lt h2.2)⟩
      · rw [if_neg h2]
        exact hdom

lemma optStep_self (refs : List ℕ) (s : ℕ) (acc : Bool × ℤ × ℕ)
    (i : ℕ) (pg : ℕ) :
    optDominates refs s (optStep refs s acc (i, some pg)) pg := by
  simp only [optStep]
  by_cases h1 : indexOfFrom refs s pg = -1
  · rw [if_pos h1]
    exact Or.inl rfl
  · rw [if_neg h1]
    by_cases h2 : acc.1 = false ∧ acc.2.1 < indexOfFrom refs s pg
    · rw [if_pos h2]
      exact Or.inr ⟨h1, le_refl _⟩
    · rw [if_neg h2]
      by_cases hf : acc.1 = true
      · exact Or.inl hf
      · refine Or.inr ⟨h1, ?_⟩
        have : ¬ acc.2.1 < indexOfFrom refs s pg := by
          intro hlt
          exact h2 ⟨by revert hf; cases acc.1 <;> simp, hlt⟩
        omega

lemma optFold_spec (refs : List ℕ) (s : ℕ) (frames : List (Option ℕ)) :
    ∀ (L : List (ℕ × Option ℕ)) (acc : Bool × ℤ × ℕ),
      (∀ x ∈ L, x.1 < frames.length ∧ frames.getD x.1 none = x.2 ∧
        ∃ pg, x.2 = some pg) →
      optGood refs s frames acc →
      optGood refs s frames (L.foldl (optStep refs s) acc) ∧
      (∀ x ∈ L, ∀ pg, x.2 = some pg →
        optDominates refs s (L.foldl (optStep refs s) acc) pg) ∧
      (∀ pg, optDominates refs s acc pg →
        optDominates refs s (L.foldl (optStep refs s) acc) pg) := by
  intro L
  induction L with
  | nil => intro acc _ hg; exact ⟨hg, by simp, fun _ h => h⟩
  | cons x L ih =>
    intro acc hent hg
    obtain ⟨hx1, hx2, pg₀, hpg₀⟩ := hent x (List.mem_cons_self x L)
    have hg' : optGood refs s frames (optStep refs s acc x) := by
      obtain ⟨i, o⟩ := x
      cases hpg₀
      exact optStep_good refs s frames acc i pg₀ hx1 hx2 hg
    obtain ⟨g1, g2, g3⟩ := ih (optStep refs s acc x)
      (fun y hy => hent y (List.mem_cons_of_mem x hy)) hg'
    simp only [List.foldl_cons]
    refine ⟨g1, ?_, fun pg h => g3 pg (optStep_mono refs s acc x pg h)⟩
    intro y hy pg hpg
    rcases List.mem_cons.mp hy with h | h
    · subst h
      obtain ⟨i, o⟩ := y
      cases hpg
      exact g3 pg (optStep_self refs s acc i pg)
    · exact g2 y h pg hpg

lemma dominates_firstUse (refs : List ℕ) (s : ℕ) (acc : Bool × ℤ × ℕ)
    (p q : ℕ) (hdom : optDominates refs s acc p)
    (hgq : if acc.1 = true then indexOfFrom refs s q = -1
      else indexOfFrom refs s q = acc.2.1) :
    firstUse (refs.drop s) p ≤ firstUse (refs.drop s) q := by
  by_cases hf : acc.1 = true
  · rw [if_pos hf] at hgq
    rw [indexOfFrom_eq_neg_one refs s q hgq]
    exact firstUse_le_length _ p
  · rw [if_neg hf] at hgq
    rcases hdom with h | ⟨hne, hle⟩
    · exact absurd h hf
    · obtain ⟨hp1, hp2⟩ := indexOfFrom_found refs s p hne
      by_cases hq : indexOfFrom refs s q = -1
      · exfalso
        rw [hq] at hgq
        rw [hp1, ← hgq] at hle
        omega
      · obtain ⟨hq1, hq2⟩ := indexOfFrom_found refs s q hq
        rw [← hgq, hp1, hq1] at hle
        omega

lemma optStep_init_good (refs : List ℕ) (s : ℕ) (frames : List (Option ℕ))
    (pg₀ : ℕ) (hk : 0 < frames.length) (hgd₀ : frames.getD 0 none = some pg₀) :
    optGood refs s frames (optStep refs s (false, -1, 0) (0, some pg₀)) := by
  simp only [optStep]
  by_cases h1 : indexOfFrom refs s pg₀ = -1
  · rw [if_pos h1]
    exact ⟨hk, pg₀, hgd₀, by rw [if_pos rfl]; exact h1⟩
  · have h0 : (0 : ℤ) ≤ indexOfFrom refs s pg₀ := by
      rcases indexOfFrom_cases refs s pg₀ with h | h
      · exact absurd h h1
      · exact h
    rw [if_neg h1, if_pos ⟨by trivial, by omega⟩]
    exact ⟨hk, pg₀, hgd₀, by rw [if_neg (by simp)]⟩

lemma findOPT_full_spec (frames : List (Option ℕ)) (refs : List ℕ) (s : ℕ)
    (hk : 0 < frames.length)
    (hfull : frames.findIdx? (fun o => o.isNone) = none) :
    ∃ q, frames.getD (findOPT frames refs s) none = some q ∧
      ∀ p, some p ∈ frames →
        firstUse (refs.drop s) p ≤ firstUse (refs.drop s) q := by
  have hsome : ∀ o ∈ frames, ∃ pg, o = some pg := by
    rw [List.findIdx?_eq_none_iff] at hfull
    intro o ho
    cases o with
    | none => exact absurd (hfull none ho) (by simp)
    | some pg => exact ⟨pg, rfl⟩
  obtain ⟨f₀, frest, hframes⟩ : ∃ f₀ frest, frames = f₀ :: frest := by
    cases frames with
    | nil => simp at hk
    | cons a b => exact ⟨a, b, rfl⟩
  obtain ⟨pg₀, hpg₀⟩ := hsome f₀ (by rw [hframes]; exact List.mem_cons_self _ _)
  have henum : frames.enum = (0, some pg₀) :: frest.enumFrom 1 := by
    rw [hframes, hpg₀, List.enum_cons]
  have hgd₀ : frames.getD 0 none = some pg₀ := by
    rw [hframes, List.getD_cons_zero, hpg₀]
  have hg₀ := optStep_init_good refs s frames pg₀ hk hgd₀
  have hent : ∀ x ∈ frest.enumFrom 1, x.1 < frames.length ∧
      frames.getD x.1 none = x.2 ∧ ∃ pg, x.2 = some pg := by
    intro x hx
    obtain ⟨i, o⟩ := x
    obtain ⟨j, hi, hj, hg⟩ := mem_enumFrom_getD frest 1 i o hx
    subst hi
    refine ⟨?_, ?_, ?_⟩
    · rw [hframes]; simp only [List.length_cons]; omega
    · rw [hframes, show 1 + j = j + 1 by omega]
      rw [List.getD_cons_succ]
      exact hg
    · refine hsome o ?_
      rw [hframes]
      exact List.mem_cons_of_mem _ (hg ▸ getD_mem_of_lt frest j hj)
  obtain ⟨g1, g2, g3⟩ := optFold_spec refs s frames (frest.enumFrom 1)
    (optStep refs s (false, -1, 0) (0, some pg₀)) hent hg₀
  have hfind : findOPT frames refs s
      = ((frest.enumFrom 1).foldl (optStep refs s)
          (optStep refs s (false, -1, 0) (0, some pg₀))).2.2 := by
    simp only [findOPT, hfull, henum, List.foldl_cons]
  obtain ⟨hlt, q, hq, hflag⟩ := g1
  refine ⟨q, ?_, ?_⟩
  · rw [hfind]
    exact hq
  · intro p hp
    have hdom₀ := g3 pg₀ (optStep_self refs s (false, -1, 0) 0 pg₀)
    obtain ⟨i, hi⟩ := mem_enumFrom_of_mem frames 0 (some p) hp
    have hienum : (i, some p) ∈ frames.enum := by simpa [List.enum] using hi
    rw [henum] at hienum
    rcases List.mem_cons.mp hienum with h | h
    · injection h with h1 h2
      injection h2 with h2
      subst h2
      exact dominates_firstUse refs s _ p q hdom₀ hflag
    · exact dominates_firstUse refs s _ p q (g2 (i, some p) h p rfl) hflag

/-- Lower bound: every completed run of every policy faults at least as often
as the offline optimum `cost` from the same resident set. -/
lemma cost_le_simGo_faults (alg : Algorithm) (refs : List ℕ) (fuel : ℕ) :
    ∀ (rest : List ℕ) (index : ℕ) (frames : List (Option ℕ)) (meta : List Meta)
      (pointer hits faults : ℕ) (timeline : List Step) (res : SimResult),
      simGo alg refs fuel rest index frames meta pointer hits faults timeline
        = some res →
      0 < frames.length → pointer < frames.length →
      meta.length = frames.length → (frames.filterMap id).Nodup →
      cost frames.length rest (resident frames) + faults ≤ res.faults := by
  intro rest
  induction rest with
  | nil =>
    intro index frames meta pointer hits faults timeline res h _ _ _ _
    rw [simGo] at h
    injection h with h
    subst h
    simp [cost_nil]
  | cons page rest ih =>
    intro index frames meta pointer hits faults timeline res h hk hp hm hnd
    cases hfind : frames.findIdx? (fun o => o = some page) with
    | some hitIndex =>
      simp only [simGo, hfind] at h
      have hpage : page ∈ resident frames := by
        rw [mem_resident]
        rw [List.findIdx?_eq_some_iff_getElem] at hfind
        obtain ⟨hlt, hp2, -⟩ := hfind
        have hget : frames.get ⟨hitIndex, hlt⟩ = some page := by simpa using hp2
        rw [← hget]
        exact List.get_mem frames hitIndex hlt
      rw [cost_cons_mem _ _ _ _ hpage]
      exact ih (index + 1) frames _ pointer (hits + 1) faults _ res h hk hp
        (by rw [List.length_set]; exact hm) hnd
    | none =>
      simp only [simGo, hfind] at h
      cases hsel : selectVictim alg refs fuel frames meta pointer index with
      | none => rw [hsel] at h; exact absurd h (by simp)
      | some vpm =>
        obtain ⟨v, p', meta₁⟩ := vpm
        rw [hsel] at h
        obtain ⟨hv, hp', hm₁⟩ := selectVictim_spec alg refs fuel frames meta
          pointer index v p' meta₁ hk hp hm hsel
        have hpnot : page ∉ resident frames := by
          rw [mem_resident]
          rw [List.findIdx?_eq_none_iff] at hfind
          intro hmem
          have := hfind (some page) hmem
          simp at this
        have hsp : some page ∉ frames :=
          fun hc => hpnot ((mem_resident frames page).mpr hc)
        cases hslot : frames.getD v none with
        | none =>
          have hroom : (resident frames).card < frames.length := by
            have h1 := card_resident_of_nodup frames hnd
            have h2 := filterMap_length_lt frames v hv hslot
            omega
          have hres := resident_set_none frames v page hv hslot
          have hnd' := nodup_set_none frames v page hv hslot hnd hsp
          rw [cost_cons_room _ _ _ _ hpnot hroom]
          have hrec := ih (index + 1) (frames.set v (some page))
            (meta₁.set v { ref := 1, lastUsed := (index : ℤ) }) p' hits
            (faults + 1) _ res h
            (by rw [List.length_set]; exact hk)
            (by rw [List.length_set]; exact hp')
            (by rw [List.length_set, List.length_set]; exact hm₁)
            hnd'
          rw [List.length_set, hres] at hrec
          omega
        | some q =>
          have hq : q ∈ resident frames := by
            rw [mem_resident, ← hslot]
            exact getD_mem_of_lt frames v hv
          obtain ⟨hres, hnd'⟩ := resident_set_some frames v page q hv hslot hnd hsp
          have hrec := ih (index + 1) (frames.set v (some page))
            (meta₁.set v { ref := 1, lastUsed := (index : ℤ) }) p' hits
            (faults + 1) _ res h
            (by rw [List.length_set]; exact hk)
            (by rw [List.length_set]; exact hp')
            (by rw [List.length_set, List.length_set]; exact hm₁)
            hnd'
          rw [List.length_set, hres] at hrec
          by_cases hroom : (resident frames).card < frames.length
          · rw [cost_cons_room _ _ _ _ hpnot hroom]
            have hcardA : (insert page (resident frames)).card ≤ frames.length := by
              rw [Finset.card_insert_of_not_mem hpnot]
              omega
            have hcardB :
                (insert page ((resident frames).erase q)).card ≤ frames.length := by
              have h1 := Finset.card_insert_le page ((resident frames).erase q)
              have h2 := Finset.card_erase_of_mem hq
              omega
            have hd := cost_deficiency frames.length rest
              (insert page (resident frames))
              (insert page ((resident frames).erase q)) hcardA hcardB
            have hsub : insert page ((resident frames).erase q)
                ⊆ insert page (resident frames) := by
              intro x hx
              rcases Finset.mem_insert.mp hx with hx | hx
              · exact Finset.mem_insert.mpr (Or.inl hx)
              · exact Finset.mem_insert.mpr (Or.inr (Finset.mem_of_mem_erase hx))
            rw [Finset.sdiff_eq_empty_iff_subset.mpr hsub, Finset.card_empty] at hd
            omega
          · have hSne : (resident frames).Nonempty := ⟨q, hq⟩
            rw [cost_cons_full _ _ _ _ hpnot hroom hSne]
            have hle := Finset.inf'_le
              (fun w => cost frames.length rest (insert page
                ((resident frames).erase w))) hq
            omega

/-- Upper bound: the OPT run attains the offline optimum `cost` — the
farthest-next-use victim is optimal, by the exchange bound. -/
lemma simGo_opt_faults_le_cost (refs : List ℕ) (fuel : ℕ) :
    ∀ (rest : List ℕ) (index : ℕ) (frames : List (Option ℕ)) (meta : List Meta)
      (pointer hits faults : ℕ) (timeline : List Step) (res : SimResult),
      simGo .opt refs fuel rest index frames meta pointer hits faults timeline
        = some res →
      rest = refs.drop index →
      0 < frames.length → (frames.filterMap id).Nodup →
      res.faults ≤ cost frames.length rest (resident frames) + faults := by
  intro rest
  induction rest with
  | nil =>
    intro index frames meta pointer hits faults timeline res h _ _ _
    rw [simGo] at h
    injection h with h
    subst h
    simp [cost_nil]
  | cons page rest ih =>
    intro index frames meta pointer hits faults timeline res h hdrop hk hnd
    have hdrop' : rest = refs.drop (index + 1) := by
      rw [← List.tail_drop, ← hdrop]
      rfl
    cases hfind : frames.findIdx? (fun o => o = some page) with
    | some hitIndex =>
      simp only [simGo, hfind] at h
      have hpage : page ∈ resident frames := by
        rw [mem_resident]
        rw [List.findIdx?_eq_some_iff_getElem] at hfind
        obtain ⟨hlt, hp2, -⟩ := hfind
        have hget : frames.get ⟨hitIndex, hlt⟩ = some page := by simpa using hp2
        rw [← hget]
        exact List.get_mem frames hitIndex hlt
      rw [cost_cons_mem _ _ _ _ hpage]
      exact ih (index + 1) frames _ pointer (hits + 1) faults _ res h hdrop' hk hnd
    | none =>
      simp only [simGo, hfind, selectVictim] at h
      have hpnot : page ∉ resident frames := by
        rw [mem_resident]
        rw [List.findIdx?_eq_none_iff] at hfind
        intro hmem
        have := hfind (some page) hmem
        simp at this
      have hsp : some page ∉ frames :=
        fun hc => hpnot ((mem_resident frames page).mpr hc)
      have hv : findOPT frames refs (index + 1) < frames.length :=
        findOPT_lt frames refs (index + 1) hk
      cases hfullidx : frames.findIdx? (fun o => o.isNone) with
      | some e =>
        -- an empty frame exists: OPT installs into it
        have hslot : frames.getD (findOPT frames refs (index + 1)) none = none := by
          have hveq : findOPT frames refs (index + 1) = e := by
            simp only [findOPT, hfullidx]
          rw [List.findIdx?_eq_some_iff_getElem] at hfullidx
          obtain ⟨hlt, hpred, -⟩ := hfullidx
          rw [hveq, List.getD_eq_getElem _ _ hlt]
          exact Option.isNone_iff_eq_none.mp (by simpa using hpred)
        have hroom : (resident frames).card < frames.length := by
          have h1 := card_resident_of_nodup frames hnd
          have h2 := filterMap_length_lt frames _ hv hslot
          omega
        have hres := resident_set_none frames _ page hv hslot
        have hnd' := nodup_set_none frames _ page hv hslot hnd hsp
        rw [cost_cons_room _ _ _ _ hpnot hroom]
        have hrec := ih (index + 1) (frames.set (findOPT frames refs (index + 1))
            (some page)) _ pointer hits (faults + 1) _ res h hdrop'
          (by rw [List.length_set]; exact hk) hnd'
        rw [List.length_set, hres] at hrec
        omega
      | none =>
        -- frames full: OPT evicts the farthest-next-use page
        obtain ⟨q, hq_eq, hq_max⟩ := findOPT_full_spec frames refs (index + 1)
          hk hfullidx
        have hq : q ∈ resident frames := by
          rw [mem_resident, ← hq_eq]
          exact getD_mem_of_lt frames _ hv
        have hfull_len : (frames.filterMap id).length = frames.length := by
          refine filterMap_length_full frames ?_
          rw [List.findIdx?_eq_none_iff] at hfullidx
          intro o ho
          have := hfullidx o ho
          revert this
          cases o <;> simp
        have hScard : (resident frames).card = frames.length := by
          rw [card_resident_of_nodup frames hnd, hfull_len]
        have hroomneg : ¬ (resident frames).card < frames.length := by omega
        have hSne : (resident frames).Nonempty := ⟨q, hq⟩
        obtain ⟨hres, hnd'⟩ := resident_set_some frames _ page q hv hq_eq hnd hsp
        rw [cost_cons_full _ _ _ _ hpnot hroomneg hSne]
        obtain ⟨w, hw, hinf⟩ := Finset.exists_mem_eq_inf' hSne
          (fun w => cost frames.length rest (insert page
            ((resident frames).erase w)))
        rw [hinf]
        have hrec := ih (index + 1) (frames.set (findOPT frames refs (index + 1))
            (some page)) _ pointer hits (faults + 1) _ res h hdrop'
          (by rw [List.length_set]; exact hk) hnd'
        rw [List.length_set, hres] at hrec
        have hexch : cost frames.length rest (insert page ((resident frames).erase q))
            ≤ cost frames.length rest (insert page ((resident frames).erase w)) := by
          by_cases hwq : w = q
          · rw [hwq]
          · have hpageq : q ≠ page := fun hc => hpnot (hc ▸ hq)
            have hpagew : w ≠ page := fun hc => hpnot (hc ▸ hw)
            have hqw : q ≠ w := fun hc => hwq hc.symm
            have hE1 : insert page ((resident frames).erase q)
                = insert w (insert page (((resident frames).erase q).erase w)) := by
              ext x
              simp only [Finset.mem_insert, Finset.mem_erase]
              constructor
              · rintro (rfl | ⟨hxq, hxS⟩)
                · exact Or.inr (Or.inl rfl)
                · rcases eq_or_ne x w with rfl | hxw
                  · exact Or.inl rfl
                  · exact Or.inr (Or.inr ⟨hxw, hxq, hxS⟩)
              · rintro (rfl | rfl | ⟨hxw, hxq, hxS⟩)
                · exact Or.inr ⟨hwq, hw⟩
                · exact Or.inl rfl
                · exact Or.inr ⟨hxq, hxS⟩
            have hE2 : insert page ((resident frames).erase w)
                = insert q (insert page (((resident frames).erase q).erase w)) := by
              ext x
              simp only [Finset.mem_insert, Finset.mem_erase]
              constructor
              · rintro (rfl | ⟨hxw, hxS⟩)
                · exact Or.inr (Or.inl rfl)
                · rcases eq_or_ne x q with rfl | hxq
                  · exact Or.inl rfl
                  · exact Or.inr (Or.inr ⟨hxw, hxq, hxS⟩)
              · rintro (rfl | rfl | ⟨hxw, hxq, hxS⟩)
                · exact Or.inr ⟨hqw, hq⟩
                · exact Or.inl rfl
                · exact Or.inr ⟨hxw, hxS⟩
            rw [hE1, hE2]
            have hqE : q ∉ insert page (((resident frames).erase q).erase w) := by
              simp only [Finset.mem_insert, Finset.mem_erase]
              push_neg
              exact ⟨hpageq, fun _ hc => absurd rfl hc⟩
            have hwE : w ∉ insert page (((resident frames).erase q).erase w) := by
              simp only [Finset.mem_insert, Finset.mem_erase]
              push_neg
              exact ⟨hpagew, fun hc => absurd rfl hc⟩
            have h2S : 2 ≤ (resident frames).card := by
              have h1 : 1 < (resident frames).card :=
                Finset.one_lt_card.mpr ⟨q, hq, w, hw, hqw⟩
              omega
            have hcardD :
                (insert page (((resident frames).erase q).erase w)).card + 1
                  ≤ frames.length := by
              have h1 := Finset.card_insert_le page
                (((resident frames).erase q).erase w)
              have h2 := Finset.card_erase_of_mem
                (Finset.mem_erase.mpr ⟨hwq, hw⟩)
              have h3 := Finset.card_erase_of_mem hq
              omega
            refine cost_exchange frames.length rest _ q w hqE hwE hqw hcardD ?_
            rw [hdrop']
            exact hq_max w ((mem_resident frames w).mp hw)
        omega

/-- The OPT simulation never exhausts any fuel: its victim search is a plain
scan, so `simGo` always completes. -/
lemma simGo_opt_total (refs : List ℕ) (fuel : ℕ) :
    ∀ (rest : List ℕ) (index : ℕ) (frames : List (Option ℕ)) (meta : List Meta)
      (pointer hits faults : ℕ) (timeline : List Step),
      ∃ res, simGo .opt refs fuel rest index frames meta pointer hits faults
        timeline = some res := by
  intro rest
  induction rest with
  | nil =>
    intro index frames meta pointer hits faults timeline
    exact ⟨_, by rw [simGo]⟩
  | cons page rest ih =>
    intro index frames meta pointer hits faults timeline
    cases hfind : frames.findIdx? (fun o => o = some page) with
    | some hitIndex =>
      simp only [simGo, hfind]
      exact ih _ _ _ _ _ _ _
    | none =>
      simp only [simGo, hfind, selectVictim]
      exact ih _ _ _ _ _ _ _

end Page

/-! ## CPU scheduling engine (`ProcessScheduling.js`)

`prepareProcesses` numbers the raw processes with their input `order`;
`runFcfs`, `runNonPreemptive`, `runPreemptive`, `runRoundRobin` and `runMlfq`
return a schedule entry per process with `startTime`, `completionTime`,
`waitingTime`, `turnaroundTime` (RR/MLFQ/preemptive compute them in a final
`data.map`).  JS numbers are modelled as `ℤ` (the engines are exact for the
values at play); the `while` loops of the four stateful runners become
fuel-indexed recursions — exhausting the fuel stops the loop early, after
which the final map's `??` fallbacks still fire, so every theorem below is
proved for arbitrary fuel.  JS mutates process objects shared between `data`
and the queues; the embedding keeps the queue copies authoritative and
rebuilds `data`'s order at the end via the unique `order` key. -/

namespace Sched

/-- A raw input process (already numeric, as after the form's `Number`
coercions). -/
structure RawProcess where
  id : ℕ
  arrival : ℤ
  burst : ℤ
  priority : ℤ
  deriving DecidableEq, Repr, Inhabited

/-- A prepared process.  `remaining`/`startTime`/`completionTime`/`level` are
the extra fields the preemptive, Round Robin and MLFQ runners spread onto the
shared objects; the other runners ignore them. -/
structure Proc where
  id : ℕ
  arrival : ℤ
  burst : ℤ
  priority : ℤ
  order : ℕ
  remaining : ℤ := 0
  startTime : Option ℤ := none
  completionTime : Option ℤ := none
  level : ℕ := 0
  deriving DecidableEq, Repr, Inhabited

/-- A schedule entry (`{...process, startTime, completionTime, waitingTime,
turnaroundTime}`).  `level` is `some` only for MLFQ entries, whose process
objects carry the field. -/
structure Entry where
  id : ℕ
  arrival : ℤ
  burst : ℤ
  priority : ℤ
  order : ℕ
  level : Option ℕ
  startTime : ℤ
  completionTime : ℤ
  waitingTime : ℤ
  turnaroundTime : ℤ
  deriving DecidableEq, Repr

/-- `const prepareProcesses = (processes) => processes.map((process, index)
=> ({...process, order: index, …}))`. -/
def prepareProcesses (processes : List RawProcess) : List Proc :=
  processes.enum.map (fun p =>
    { id := p.2.id, arrival := p.2.arrival, burst := p.2.burst,
      priority := p.2.priority, order := p.1 })

/-- `sortByArrival` as a total `Bool` order: arrival, tie-broken by input
order (orders are distinct, so the JS comparator never returns 0 on distinct
elements and the stable sort is fully determined). -/
def arrivalLE (a b : Proc) : Bool :=
  a.arrival < b.arrival ∨ (a.arrival = b.arrival ∧ a.order ≤ b.order)

/-- `compareByBurst`. -/
def burstLE (a b : Proc) : Bool :=
  a.burst < b.burst ∨ (a.burst = b.burst ∧ arrivalLE a b)

/-- `compareByPriority`. -/
def priorityLE (a b : Proc) : Bool :=
  a.priority < b.priority ∨ (a.priority = b.priority ∧ arrivalLE a b)

/-- `compareByRemaining`. -/
def remainingLE (a b : Proc) : Bool :=
  a.remaining < b.remaining ∨ (a.remaining = b.remaining ∧ arrivalLE a b)

/-- The final entry built by every runner: `completionTime` falls back to
`arrival + burst` (`arrival + Math.max(remaining, 0)` in `runPreemptive` is
handled by its own map), `turnaround = completion − arrival`,
`waiting = turnaround − burst`, `startTime` falls back to `arrival`. -/
def finalize (lvl : Option ℕ) (p : Proc) : Entry :=
  let completionTime := p.completionTime.getD (p.arrival + p.burst)
  let turnaroundTime := completionTime - p.arrival
  let waitingTime := turnaroundTime - p.burst
  { id := p.id, arrival := p.arrival, burst := p.burst, priority := p.priority,
    order := p.order, level := lvl,
    startTime := p.startTime.getD p.arrival,
    completionTime := completionTime,
    waitingTime := waitingTime, turnaroundTime := turnaroundTime }

/-- `const runFcfs = (processes) => …`: sort by arrival and serve in order,
carrying `currentTime`. -/
def runFcfs (processes : List RawProcess) : List Entry :=
  let sorted := sortBy arrivalLE (prepareProcesses processes)
  (sorted.foldl (fun (acc : ℤ × List Entry) process =>
    let startTime := max process.arrival acc.1
    let completionTime := startTime + process.burst
    let turnaroundTime := completionTime - process.arrival
    let waitingTime := turnaroundTime - process.burst
    let entry : Entry :=
      { id := process.id, arrival := process.arrival,
        burst := process.burst, priority := process.priority,
        order := process.order, level := none,
        startTime := startTime, completionTime := completionTime,
        waitingTime := waitingTime, turnaroundTime := turnaroundTime }
    (completionTime, acc.2 ++ [entry]))
    (0, [])).2

/-- The `while (pending.length)` loop of `runNonPreemptive`: pick the
comparator-least arrived process (`available.sort(comparator)[0]`), remove it
(`pending.splice(pending.indexOf(nextProcess), 1)`), serve it to completion;
with no arrival, jump the clock to `pending[0].arrival`. -/
def runNPGo (cmp : Proc → Proc → Bool) :
    ℕ → List Proc → ℤ → List Entry → List Entry
  | 0, _, _, schedule => schedule
  | _ + 1, [], _, schedule => schedule
  | fuel + 1, p₀ :: pending', time, schedule =>
    let pending := p₀ :: pending'
    let available := pending.filter (fun p => p.arrival ≤ time)
    match (sortBy cmp available).head? with
    | none => runNPGo cmp fuel pending p₀.arrival schedule
    | some nextProcess =>
      let startTime := max time nextProcess.arrival
      let completionTime := startTime + nextProcess.burst
      let turnaroundTime := completionTime - nextProcess.arrival
      let waitingTime := turnaroundTime - nextProcess.burst
      let entry : Entry :=
        { id := nextProcess.id, arrival := nextProcess.arrival,
          burst := nextProcess.burst, priority := nextProcess.priority,
          order := nextProcess.order, level := none,
          startTime := startTime, completionTime := completionTime,
          waitingTime := waitingTime, turnaroundTime := turnaroundTime }
      runNPGo cmp fuel (pending.erase nextProcess) completionTime (schedule ++ [entry])

/-- `const runNonPreemptive = (processes, comparator) => …`.  Each loop
iteration either serves a process or jumps the clock to the next arrival (two
consecutive jumps are impossible), so `2·n + 1` iterations always reach the
JS loop's exit; the fuel is a parameter so the theorems hold regardless. -/
def runNonPreemptive (cmp : Proc → Proc → Bool) (processes : List RawProcess)
    (fuel : ℕ) : List Entry :=
  let pending := sortBy arrivalLE (prepareProcesses processes)
  let time := match pending.head? with
    | some p => p.arrival
    | none => 0
  runNPGo cmp fuel pending time []

/-- Replace the process with the given `order` key (JS mutates the shared
object in `data`; `order` is its unique identity). -/
def updByOrder (data : List Proc) (p : Proc) : List Proc :=
  data.map (fun q => if q.order = p.order then p else q)

/-- The `while (data.some(remaining > 0))` loop of `runPreemptive`: run the
comparator-least available process until the next arrival or its completion,
jumping the clock directly (never tick-by-tick). -/
def runPGo (cmp : Proc → Proc → Bool) :
    ℕ → List Proc → ℤ → List Proc
  | 0, data, _ => data
  | fuel + 1, data, time =>
    if data.all (fun p => ¬ 0 < p.remaining) then data
    else
      let available := data.filter (fun p => p.arrival ≤ time ∧ 0 < p.remaining)
      match (sortBy cmp available).head? with
      | none =>
        match ((data.filter (fun p => 0 < p.remaining)).map (·.arrival)).min? with
        | none => data
        | some nextArrival => runPGo cmp fuel data nextArrival
      | some current =>
        let current₁ : Proc :=
          if current.startTime = none then { current with startTime := some time }
          else current
        let nextArrival :=
          ((data.filter (fun p => time < p.arrival ∧ 0 < p.remaining)).map
            (·.arrival)).min?
        let finishTime := time + current₁.remaining
        let nextTime :=
          match nextArrival with
          | some na => if na < finishTime then na else finishTime
          | none => finishTime
        let elapsed := nextTime - time
        let current₂ : Proc := { current₁ with remaining := current₁.remaining - elapsed }
        let current₃ : Proc :=
          if current₂.remaining = 0 then { current₂ with completionTime := some nextTime }
          else current₂
        runPGo cmp fuel (updByOrder data current₃) nextTime

/-- `const runPreemptive = (processes, comparator) => …` with its final map
(`completionTime ?? arrival + Math.max(remaining, 0)`). -/
def runPreemptive (cmp : Proc → Proc → Bool) (processes : List RawProcess)
    (fuel : ℕ) : List Entry :=
  let data := (prepareProcesses processes).map (fun p =>
    { p with remaining := p.burst, startTime := none, completionTime := none })
  let time := match (data.map (·.arrival)).min? with
    | some t => t
    | none => 0
  (runPGo cmp fuel data time).map (fun p =>
    let p' : Proc :=
      { p with completionTime := some (p.completionTime.getD (p.arrival + max p.remaining 0)) }
    finalize none p')

/-- The `while (ready.length || pending.length)` loop of `runRoundRobin`.
Arrivals are drained (`pending[0].arrival <= time`) before a slice is taken
and again after the slice, *before* the preempted process is re-enqueued.
Finished processes accumulate in `done`; on fuel exhaustion the queues are
returned as they stand. -/
def rrGo (quantum : ℤ) :
    ℕ → List Proc → List Proc → ℤ → List Proc →
    List Proc × List Proc × List Proc
  | 0, pending, ready, _, done => (done, ready, pending)
  | fuel + 1, pending, ready, time, done =>
    if pending = [] ∧ ready = [] then (done, ready, pending)
    else
      let arrived := pending.takeWhile (fun p => p.arrival ≤ time)
      let pending₁ := pending.dropWhile (fun p => p.arrival ≤ time)
      match ready ++ arrived with
      | [] =>
        match pending₁ with
        | [] => (done, [], [])
        | p₀ :: _ => rrGo quantum fuel pending₁ [] p₀.arrival done
      | current :: ready₂ =>
        let current₁ :=
          if current.startTime = none then { current with startTime := some time }
          else current
        let runTime := min quantum current₁.remaining
        let current₂ := { current₁ with remaining := current₁.remaining - runTime }
        let time₁ := time + runTime
        let arrived₂ := pending₁.takeWhile (fun p => p.arrival ≤ time₁)
        let pending₂ := pending₁.dropWhile (fun p => p.arrival ≤ time₁)
        if 0 < current₂.remaining then
          rrGo quantum fuel pending₂ (ready₂ ++ arrived₂ ++ [current₂]) time₁ done
        else
          rrGo quantum fuel pending₂ (ready₂ ++ arrived₂) time₁
            (done ++ [{ current₂ with completionTime := some time₁ }])

/-- `const runRoundRobin = (processes, settings) => …`: reject a
non-positive quantum, run the queue loop, then rebuild `data`'s input order
(JS mutates shared objects; the embedding looks each process up by its
unique `order`) and apply the final map. -/
def runRoundRobin (processes : List RawProcess) (quantum : ℤ) (fuel : ℕ) :
    Except String (List Entry) :=
  if quantum ≤ 0 then .error "Provide a positive time quantum for Round Robin."
  else
    let data := (prepareProcesses processes).map (fun p =>
      { p with remaining := p.burst, startTime := none, completionTime := none })
    let pending := sortBy arrivalLE data
    let time := match pending.head? with
      | some p => p.arrival
      | none => 0
    let r := rrGo quantum fuel pending [] time []
    .ok (data.map (fun p =>
      finalize none
        (((r.1 ++ r.2.1 ++ r.2.2).find? (fun q => q.order = p.order)).getD p)))

/-- `const parseMlfqLevels = (value) => …`: keep the positive quanta. -/
def parseMlfqLevels (levels : List ℤ) : List ℤ :=
  levels.filter (fun q => 0 < q)

/-- `const quantums = [...levels, Infinity]` (`none` is the unbounded
quantum). -/
def mlfqQuantums (levels : List ℤ) : List (Option ℤ) :=
  levels.map some ++ [none]

/-- The arrival drain of `runMlfq` (`while (pending.length && pending[0]
.arrival <= time)` pushing onto `queues[0]` with `level = 0`), performed both
before a slice is picked and after it runs: returns the remaining pending
list and the updated queues. -/
def mlfqDrain (pending : List Proc) (queues : List (List Proc)) (time : ℤ) :
    List Proc × List (List Proc) :=
  (pending.dropWhile (fun p => p.arrival ≤ time),
    queues.set 0 (queues.getD 0 [] ++
      (pending.takeWhile (fun p => p.arrival ≤ time)).map
        (fun p => ({ p with level := 0 } : Proc))))

/-- The `while (hasWork())` loop of `runMlfq`.  Arrivals always enter level
0; the level-`qi` quantum is `quantums[qi]` (`none` = `Infinity`, which never
preempts: the run time is all of `remaining`); an unfinished process demotes
to `min (qi + 1) (queues.length - 1)` (the queue count is invariant, so the
JS's outer `queues.length` is the current one). -/
def mlfqGo (quantums : List (Option ℤ)) :
    ℕ → List Proc → List (List Proc) → ℤ → List Proc →
    List Proc × List (List Proc) × List Proc
  | 0, pending, queues, _, done => (done, queues, pending)
  | fuel + 1, pending, queues, time, done =>
    if pending = [] ∧ queues.all (· = []) then (done, queues, pending)
    else
      let d₁ := mlfqDrain pending queues time
      match d₁.2.findIdx? (fun q => ¬ q.isEmpty) with
      | none =>
        match d₁.1 with
        | p₀ :: _ => mlfqGo quantums fuel d₁.1 d₁.2 p₀.arrival done
        | [] => mlfqGo quantums fuel d₁.1 d₁.2 time done
      | some qi =>
        match d₁.2.getD qi [] with
        | [] => (done, d₁.2, d₁.1)
        | current :: restq =>
          let queues₂ := d₁.2.set qi restq
          let current₁ : Proc :=
            if current.startTime = none then { current with startTime := some time }
            else current
          let runTime := match quantums.getD qi none with
            | none => current₁.remaining
            | some q => min q current₁.remaining
          let current₂ : Proc := { current₁ with remaining := current₁.remaining - runTime }
          let time₁ := time + runTime
          let d₂ := mlfqDrain d₁.1 queues₂ time₁
          if 0 < current₂.remaining then
            let nextLevel := min (qi + 1) (d₂.2.length - 1)
            mlfqGo quantums fuel d₂.1
              (d₂.2.set nextLevel
                (d₂.2.getD nextLevel [] ++ [{ current₂ with level := nextLevel }]))
              time₁ done
          else
            mlfqGo quantums fuel d₂.1 d₂.2 time₁
              (done ++ [{ current₂ with completionTime := some time₁ }])

/-- `const runMlfq = (processes, settings) => …`: reject an empty quantum
list, run the multi-queue loop from empty queues (one per quantum, plus the
unbounded last), rebuild `data`'s input order and apply the final map (MLFQ
entries carry their process's `level`). -/
def runMlfq (processes : List RawProcess) (levels : List ℤ) (fuel : ℕ) :
    Except String (List Entry) :=
  let levels := parseMlfqLevels levels
  if levels.isEmpty then
    .error "Enter at least one time quantum for MLFQ (e.g. 2,4,8)."
  else
    let quantums := mlfqQuantums levels
    let data := (prepareProcesses processes).map (fun p =>
      ({ p with
          remaining := p.burst, level := 0, startTime := none,
          completionTime := none } : Proc))
    let pending := sortBy arrivalLE data
    let time := match pending.head? with
      | some p => p.arrival
      | none => 0
    let r := mlfqGo quantums fuel pending (quantums.map (fun _ => [])) time []
    .ok (data.map (fun p =>
      let q := ((r.1 ++ r.2.1.flatten ++ r.2.2).find?
        (fun q => q.order = p.order)).getD p
      finalize (some q.level) q))

/-- The `schedulingStrategies` dispatch table (the per-policy entry points
invoked by `runSelectedAlgorithm`). -/
inductive Strategy
  | fcfs
  | sjfNonPreemptive
  | sjfPreemptive
  | priorityNonPreemptive
  | priorityPreemptive
  | roundRobin
  | mlfq
  deriving DecidableEq, Repr

/-- The settings record (`rrQuantum`, `mlfqLevels`), already numeric. -/
structure Settings where
  rrQuantum : ℤ
  mlfqLevels : List ℤ
  deriving DecidableEq, Repr

/-- `const schedulingStrategies = { fcfs: …, sjfNonPreemptive: …, … }`. -/
def runStrategy (s : Strategy) (processes : List RawProcess)
    (settings : Settings) (fuel : ℕ) : Except String (List Entry) :=
  match s with
  | .fcfs => .ok (runFcfs processes)
  | .sjfNonPreemptive => .ok (runNonPreemptive burstLE processes fuel)
  | .sjfPreemptive => .ok (runPreemptive remainingLE processes fuel)
  | .priorityNonPreemptive => .ok (runNonPreemptive priorityLE processes fuel)
  | .priorityPreemptive => .ok (runPreemptive priorityLE processes fuel)
  | .roundRobin => runRoundRobin processes settings.rrQuantum fuel
  | .mlfq => runMlfq processes settings.mlfqLevels fuel

/-- The sample process set shipped with the component
(`initialProcesses`). -/
def initialProcesses : List RawProcess :=
  [{ id := 1, arrival := 0, burst := 4, priority := 2 },
   { id := 2, arrival := 1, burst := 3, priority := 1 },
   { id := 3, arrival := 2, burst := 5, priority := 3 }]

/-- The default settings (`rrQuantum: '2'`, `mlfqLevels: '2,4,8'`). -/
def defaultSettings : Settings :=
  { rrQuantum := 2, mlfqLevels := [2, 4, 8] }

/-- The derived-field invariant claimed for every schedule entry. -/
def entryInvariant (e : Entry) : Prop :=
  e.turnaroundTime = e.completionTime - e.arrival ∧
  e.waitingTime = e.turnaroundTime - e.burst

/-- Every entry built by the shared final map satisfies the invariant. -/
lemma entryInvariant_finalize (lvl : Option ℕ) (p : Proc) :
    entryInvariant (finalize lvl p) :=
  ⟨rfl, rfl⟩

/-- Every entry of a FCFS schedule satisfies the invariant. -/
lemma entryInvariant_runFcfs (processes : List RawProcess) :
    ∀ e ∈ runFcfs processes, entryInvariant e := by
  unfold runFcfs
  generalize sortBy arrivalLE (prepareProcesses processes) = sorted
  have main : ∀ (l : List Proc) (acc : ℤ × List Entry),
      (∀ e ∈ acc.2, entryInvariant e) →
      ∀ e ∈ (l.foldl (fun (acc : ℤ × List Entry) process =>
        let startTime := max process.arrival acc.1
        let completionTime := startTime + process.burst
        let turnaroundTime := completionTime - process.arrival
        let waitingTime := turnaroundTime - process.burst
        let entry : Entry :=
          { id := process.id, arrival := process.arrival,
            burst := process.burst, priority := process.priority,
            order := process.order, level := none,
            startTime := startTime, completionTime := completionTime,
            waitingTime := waitingTime, turnaroundTime := turnaroundTime }
        (completionTime, acc.2 ++ [entry])) acc).2, entryInvariant e := by
    intro l
    induction l with
    | nil => intro acc hacc; exact hacc
    | cons p l ih =>
      intro acc hacc
      rw [List.foldl_cons]
      apply ih
      intro e he
      rw [List.mem_append] at he
      rcases he with he | he
      · exact hacc e he
      · rw [List.mem_singleton] at he
        subst he
        exact ⟨rfl, rfl⟩
  intro e he
  exact main sorted (0, []) (by simp) e he

/-- Every entry accumulated by the non-preemptive loop satisfies the
invariant. -/
lemma entryInvariant_runNPGo (cmp : Proc → Proc → Bool) :
    ∀ (fuel : ℕ) (pending : List Proc) (time : ℤ) (schedule : List Entry),
      (∀ e ∈ schedule, entryInvariant e) →
      ∀ e ∈ runNPGo cmp fuel pending time schedule, entryInvariant e := by
  intro fuel
  induction fuel with
  | zero => intro pending time schedule hs; exact hs
  | succ fuel ih =>
    intro pending time schedule hs
    match pending with
    | [] => exact hs
    | p₀ :: pending' =>
      rw [runNPGo]
      cases hpick : (sortBy cmp ((p₀ :: pending').filter
          (fun p => p.arrival ≤ time))).head? with
      | none =>
        simp only [hpick]
        exact ih _ _ _ hs
      | some nextProcess =>
        simp only [hpick]
        apply ih
        intro e he
        rw [List.mem_append] at he
        rcases he with he | he
        · exact hs e he
        · rw [List.mem_singleton] at he
          subst he
          exact ⟨rfl, rfl⟩

/-- **C1.** For every scheduling policy (FCFS, SJF non-preemptive and
preemptive, Priority non-preemptive and preemptive, Round Robin, MLFQ), every
process set, settings and loop fuel, every entry of a returned schedule
satisfies `turnaround = completion − arrival` and
`waiting = turnaround − burst`. -/
theorem schedule_entry_invariant (s : Strategy) (processes : List RawProcess)
    (settings : Settings) (fuel : ℕ) (sched : List Entry)
    (h : runStrategy s processes settings fuel = .ok sched) :
    ∀ e ∈ sched, entryInvariant e := by
  cases s with
  | fcfs =>
    rw [runStrategy] at h
    injection h with h
    subst h
    exact entryInvariant_runFcfs processes
  | sjfNonPreemptive =>
    rw [runStrategy] at h
    injection h with h
    subst h
    exact entryInvariant_runNPGo burstLE fuel _ _ [] (by simp)
  | priorityNonPreemptive =>
    rw [runStrategy] at h
    injection h with h
    subst h
    exact entryInvariant_runNPGo priorityLE fuel _ _ [] (by simp)
  | sjfPreemptive =>
    rw [runStrategy] at h
    injection h with h
    subst h
    intro e he
    rw [runPreemptive, List.mem_map] at he
    obtain ⟨p, -, rfl⟩ := he
    exact entryInvariant_finalize _ _
  | priorityPreemptive =>
    rw [runStrategy] at h
    injection h with h
    subst h
    intro e he
    rw [runPreemptive, List.mem_map] at he
    obtain ⟨p, -, rfl⟩ := he
    exact entryInvariant_finalize _ _
  | roundRobin =>
    rw [runStrategy, runRoundRobin] at h
    split at h
    · exact absurd h (by simp)
    · injection h with h
      subst h
      intro e he
      rw [List.mem_map] at he
      obtain ⟨p, -, rfl⟩ := he
      exact entryInvariant_finalize _ _
  | mlfq =>
    rw [runStrategy, runMlfq] at h
    split at h
    · exact absurd h (by simp)
    · injection h with h
      subst h
      intro e he
      rw [List.mem_map] at he
      obtain ⟨p, -, rfl⟩ := he
      exact entryInvariant_finalize _ _

/-- A list whose `takeWhile` is empty is untouched by `dropWhile`. -/
lemma dropWhile_eq_of_takeWhile_nil {α : Type} (p : α → Bool) (l : List α)
    (h : l.takeWhile p = []) : l.dropWhile p = l := by
  cases l with
  | nil => rfl
  | cons a l =>
    rw [List.takeWhile_cons] at h
    rw [List.dropWhile_cons]
    split at h
    · exact absurd h (by simp)
    · next hpa => rw [if_neg hpa]

end Sched

end AlgoLab

namespace AlgoLab

/-- **C10.** For every head position, direction and pending-request list, the
disk engine's reported served count for SCAN equals the number of pending
requests plus one, and for CSCAN the number plus two: the boundary cylinders
(0 and/or 199) are spliced into the visit order and counted as served stops
(so the reported average `total / served` divides by them as well). -/
theorem disk_scan_cscan_served_counts (head : ℕ) (direction : Disk.Direction)
    (reqs : List ℕ) :
    (Disk.simulate .scan head direction reqs).served = reqs.length + 1 ∧
    (Disk.simulate .cscan head direction reqs).served = reqs.length + 2 := by
  have hsplit := Disk.length_filter_lt_add_filter_ge head reqs
  cases direction <;>
    simp [Disk.simulate, Disk.orderRequests, length_sortBy] <;>
    omega

/-- **C5.** For every sequence of fit-engine operations (allocate by
First/Best/Worst/Next Fit, free — each of which coalesces) starting from the
initial single free block, the sum of the block sizes is constant (200), and
after every operation no two adjacent blocks of the list are both free. -/
theorem fit_sum_constant_and_no_adjacent_free (ops : List Fit.Op) :
    Fit.sumSize (Fit.applyOps ops Fit.initialState).blocks = 200 ∧
    Fit.noAdjacentFree (Fit.applyOps ops Fit.initialState).blocks := by
  have main : ∀ (l : List Fit.Op) (st : Fit.State), Fit.Invariant st →
      Fit.Invariant (l.foldl Fit.applyOp st) := by
    intro l
    induction l with
    | nil => intro st h; exact h
    | cons op rest ih =>
      intro st h
      apply ih
      cases op with
      | alloc algo size => exact Fit.allocate_invariant algo size st h
      | free targetId => exact Fit.freeProcess_invariant targetId st h
  exact main ops Fit.initialState
    ⟨by decide, by simp [Fit.noAdjacentFree, Fit.initialState, Fit.initialBlocks]⟩

/-- **C9 (counterexample).** The stored Next Fit resume index is *not* the
position just after the allocated block: after
`alloc 30; alloc 30; free P1; alloc 100` (all Next Fit) the allocation goes
to index 2 of the four-block list, so "just after the allocated block" is
index 3, but the stored resume index is 0 (the first free block of the
coalesced list, which here is the hole freed earlier at index 0). -/
theorem fit_nextfit_resume_index_counterexample :
    (Fit.applyOps [.alloc .next 30, .alloc .next 30, .free 1000, .alloc .next 100]
        Fit.initialState).blocks.findIdx? (fun b => b.label = some 3) = some 2 ∧
    (Fit.applyOps [.alloc .next 30, .alloc .next 30, .free 1000, .alloc .next 100]
        Fit.initialState).blocks.length = 4 ∧
    (Fit.applyOps [.alloc .next 30, .alloc .next 30, .free 1000, .alloc .next 100]
        Fit.initialState).nextFitStart = 0 := by
  decide

/-- **C9 (amended).** A successful Next Fit allocation scans circularly
starting *at* the stored resume index (wrapping at most once), and afterwards
the stored resume index is the index of the first free block of the
coalesced post-allocation list (0 when no block is free) — not the position
immediately after the allocated block. -/
theorem fit_nextfit_resume_index_amended (st : Fit.State) (size : ℤ) (i : ℕ)
    (hpos : 0 < size)
    (hfind : Fit.findBlockIndex .next st.blocks st.nextFitStart size = some i) :
    (Fit.allocate .next size st).nextFitStart =
      (((Fit.allocate .next size st).blocks.findIdx? (·.free)).getD 0) := by
  unfold Fit.allocate
  rw [if_neg (by omega)]
  rw [hfind]
  rfl

/-- **C4.** For every state and request vector (with a valid process id),
the request admission rejects with the claims-exceeded message when the
request exceeds the process's Need row — regardless of Available, which is
only consulted afterwards —, rejects with the resources-exceeded message when
it exceeds Available, rejects with the unsafe-state message when the
tentatively updated state fails `checkSafety`, and otherwise commits exactly
the tentative Available/Allocation (Need being derived from them); on every
rejection the returned state is exactly the input state. -/
theorem bank_request_admission (st : Bank.State) (pid : ℕ) (req : List ℤ)
    (hpid : pid < st.allocation.length) :
    (Bank.reqWithinNeed ((Bank.need st.maxMatrix st.allocation).getD pid []) req = false →
      Bank.handleSubmitRequest st pid req = (.exceedsNeed, st)) ∧
    (Bank.reqWithinNeed ((Bank.need st.maxMatrix st.allocation).getD pid []) req = true →
      Bank.reqWithinAvailable st.available req = false →
      Bank.handleSubmitRequest st pid req = (.exceedsAvailable, st)) ∧
    (Bank.reqWithinNeed ((Bank.need st.maxMatrix st.allocation).getD pid []) req = true →
      Bank.reqWithinAvailable st.available req = true →
      (Bank.tentative st pid req).safe = false →
      Bank.handleSubmitRequest st pid req = (.unsafeState, st)) ∧
    (Bank.reqWithinNeed ((Bank.need st.maxMatrix st.allocation).getD pid []) req = true →
      Bank.reqWithinAvailable st.available req = true →
      (Bank.tentative st pid req).safe = true →
      Bank.handleSubmitRequest st pid req =
        (.granted (Bank.tentative st pid req).sequence,
          { st with
            available := Bank.newAvailable st.available req,
            allocation := Bank.newAllocation st.allocation pid req })) := by
  have hvalid : ¬ st.allocation.length ≤ pid := by omega
  refine ⟨?_, ?_, ?_, ?_⟩
  · intro hneed
    unfold Bank.handleSubmitRequest
    rw [if_neg hvalid, if_pos (by rw [hneed]; simp)]
  · intro hneed havail
    unfold Bank.handleSubmitRequest
    rw [if_neg hvalid, if_neg (by rw [hneed]; simp), if_pos (by rw [havail]; simp)]
  · intro hneed havail hsafe
    unfold Bank.handleSubmitRequest
    rw [if_neg hvalid, if_neg (by rw [hneed]; simp), if_neg (by rw [havail]; simp),
      if_pos (by rw [hsafe]; simp)]
  · intro hneed havail hsafe
    unfold Bank.handleSubmitRequest
    rw [if_neg hvalid, if_neg (by rw [hneed]; simp), if_neg (by rw [havail]; simp),
      if_neg (by rw [hsafe]; simp)]

/-- Witness for `bank_request_admission` at the component's sample state. -/
theorem bank_request_admission_witness :
    (0 < Bank.sampleState.allocation.length) ∧
    ((Bank.reqWithinNeed ((Bank.need Bank.sampleState.maxMatrix
        Bank.sampleState.allocation).getD 0 []) [0, 1, 0] = false →
      Bank.handleSubmitRequest Bank.sampleState 0 [0, 1, 0] = (.exceedsNeed, Bank.sampleState)) ∧
    (Bank.reqWithinNeed ((Bank.need Bank.sampleState.maxMatrix
        Bank.sampleState.allocation).getD 0 []) [0, 1, 0] = true →
      Bank.reqWithinAvailable Bank.sampleState.available [0, 1, 0] = false →
      Bank.handleSubmitRequest Bank.sampleState 0 [0, 1, 0] = (.exceedsAvailable, Bank.sampleState)) ∧
    (Bank.reqWithinNeed ((Bank.need Bank.sampleState.maxMatrix
        Bank.sampleState.allocation).getD 0 []) [0, 1, 0] = true →
      Bank.reqWithinAvailable Bank.sampleState.available [0, 1, 0] = true →
      (Bank.tentative Bank.sampleState 0 [0, 1, 0]).safe = false →
      Bank.handleSubmitRequest Bank.sampleState 0 [0, 1, 0] = (.unsafeState, Bank.sampleState)) ∧
    (Bank.reqWithinNeed ((Bank.need Bank.sampleState.maxMatrix
        Bank.sampleState.allocation).getD 0 []) [0, 1, 0] = true →
      Bank.reqWithinAvailable Bank.sampleState.available [0, 1, 0] = true →
      (Bank.tentative Bank.sampleState 0 [0, 1, 0]).safe = true →
      Bank.handleSubmitRequest Bank.sampleState 0 [0, 1, 0] =
        (.granted (Bank.tentative Bank.sampleState 0 [0, 1, 0]).sequence,
          { Bank.sampleState with
            available := Bank.newAvailable Bank.sampleState.available [0, 1, 0],
            allocation := Bank.newAllocation Bank.sampleState.allocation 0 [0, 1, 0] }))) :=
  ⟨by decide, bank_request_admission Bank.sampleState 0 [0, 1, 0] (by decide)⟩

/-- One step of the WSClock hand over an empty frame: it is returned
immediately. -/
lemma wsclock_install (fuel : ℕ) (frames : List (Option ℕ)) (meta : List Page.Meta)
    (t : ℤ) (p : ℕ) (h : (frames.getD p none).isNone = true) :
    Page.findWSClockGo frames t (fuel + 1) meta p
      = some (p, (p + 1) % frames.length, meta) := by
  rw [Page.findWSClockGo, if_pos h]

/-- Once every resident frame has reference bit 0 and age 0 (cleared and
refreshed by the sweep that just passed), the WSClock victim search never
returns, whatever fuel it is given. -/
lemma wsclock_stuck (m : ℕ) : ∀ p : ℕ, p < 3 →
    Page.findWSClockGo [some 1, some 2, some 3] 3 m
      [⟨0, 3⟩, ⟨0, 3⟩, ⟨0, 3⟩] p = none := by
  induction m with
  | zero => intro p _; rfl
  | succ m ih =>
    intro p hp
    interval_cases p <;>
    · rw [Page.findWSClockGo]
      norm_num [List.getD]
      exact ih _ (by norm_num)

/-- The first full-frames WSClock fault of `refs = 1 2 3 4`, `frames = 3`:
the hand's first sweep clears the three reference bits and refreshes the
three timestamps to the current time, after which no frame is ever
evictable — the search diverges for every fuel. -/
lemma wsclock_firstsweep : ∀ m : ℕ,
    Page.findWSClockGo [some 1, some 2, some 3] 3 m
      [⟨1, 0⟩, ⟨1, 1⟩, ⟨1, 2⟩] 0 = none
  | 0 => rfl
  | 1 => rfl
  | 2 => rfl
  | (m + 3) => by
    have h1 : Page.findWSClockGo [some 1, some 2, some 3] 3 (m + 3)
        [⟨1, 0⟩, ⟨1, 1⟩, ⟨1, 2⟩] 0
        = Page.findWSClockGo [some 1, some 2, some 3] 3 (m + 2)
          [⟨0, 3⟩, ⟨1, 1⟩, ⟨1, 2⟩] 1 := by
      rw [Page.findWSClockGo]
      norm_num [List.getD]
    have h2 : Page.findWSClockGo [some 1, some 2, some 3] 3 (m + 2)
        [⟨0, 3⟩, ⟨1, 1⟩, ⟨1, 2⟩] 1
        = Page.findWSClockGo [some 1, some 2, some 3] 3 (m + 1)
          [⟨0, 3⟩, ⟨0, 3⟩, ⟨1, 2⟩] 2 := by
      rw [Page.findWSClockGo]
      norm_num [List.getD]
    have h3 : Page.findWSClockGo [some 1, some 2, some 3] 3 (m + 1)
        [⟨0, 3⟩, ⟨0, 3⟩, ⟨1, 2⟩] 2
        = Page.findWSClockGo [some 1, some 2, some 3] 3 m
          [⟨0, 3⟩, ⟨0, 3⟩, ⟨0, 3⟩] 0 := by
      rw [Page.findWSClockGo]
      norm_num [List.getD]
    rw [h1, h2, h3]
    exact wsclock_stuck m 0 (by norm_num)

/-- A faulting reference whose WSClock victim search exhausts its fuel makes
the whole simulation return `none`. -/
lemma simGo_wsclock_fault_none (refs : List ℕ) (fuel : ℕ) (page : ℕ)
    (rest : List ℕ) (index : ℕ) (frames : List (Option ℕ))
    (meta : List Page.Meta) (pointer hits faults : ℕ) (tl : List Page.Step)
    (hmiss : frames.findIdx? (fun o => o = some page) = none)
    (hdiv : Page.findWSClockGo frames (index : ℤ) fuel meta pointer = none) :
    Page.simGo .wsclock refs fuel (page :: rest) index frames meta pointer
      hits faults tl = none := by
  rw [Page.simGo, hmiss]
  simp only [Page.selectVictim, hdiv]

/-- **C2.** The claim that the simulation is total fails for WSClock: on
`frames = 3` and reference string `1 2 3 4` the victim search of the fourth
reference loops forever (the code's `while (true)` never exits), so the
fuel-indexed simulation returns `none` for every fuel.  The other policies do
terminate; the WSClock `while (true)` is the code bug. -/
theorem wsclock_search_diverges (fuel : ℕ) :
    Page.simulate .wsclock 3 [1, 2, 3, 4] fuel = none := by
  match fuel with
  | 0 => rfl
  | n + 1 =>
    have s3 : Page.simulate .wsclock 3 [1, 2, 3, 4] (n + 1)
        = Page.simGo .wsclock [1, 2, 3, 4] (n + 1) [4] 3
            [some 1, some 2, some 3] [⟨1, 0⟩, ⟨1, 1⟩, ⟨1, 2⟩] 0 0 3
            [{ index := 2, page := 3, frames := [some 1, some 2, some 3],
               fault := true, replacedIndex := 2 },
             { index := 1, page := 2, frames := [some 1, some 2, none],
               fault := true, replacedIndex := 1 },
             { index := 0, page := 1, frames := [some 1, none, none],
               fault := true, replacedIndex := 0 }] := rfl
    rw [s3]
    exact simGo_wsclock_fault_none _ _ _ _ _ _ _ _ _ _ _ (by decide)
      (wsclock_firstsweep (n + 1))

/-- **C3 (counterexample).** The Belady check on the exact reference string
`7 0 1 2 0 3 0 4 2 3 0 3 2` with FIFO at 3 vs 4 frames reports *no* anomaly:
4 frames fault strictly less than 3 frames on this string. -/
theorem belady_check_counterexample :
    Page.detectBelady Page.beladyRefs 3 100 = none := by
  decide

/-- **C3 (amended).** On `7 0 1 2 0 3 0 4 2 3 0 3 2`, FIFO faults 10 times
with 3 frames and 7 times with 4 frames, so `detectBelady` (which reports an
anomaly only when `frames + 1` faults strictly more) reports none. -/
theorem belady_check_amended :
    (Page.simulate .fifo 3 Page.beladyRefs 100).map (·.faults) = some 10 ∧
    (Page.simulate .fifo 4 Page.beladyRefs 100).map (·.faults) = some 7 ∧
    Page.detectBelady Page.beladyRefs 3 100 = none := by
  refine ⟨by decide, by decide, by decide⟩

/-- Witness for `fit_nextfit_resume_index_amended` at a concrete input. -/
theorem fit_nextfit_resume_index_amended_witness :
    (0 < (30 : ℤ)) ∧
    Fit.findBlockIndex .next Fit.initialState.blocks Fit.initialState.nextFitStart 30
      = some 0 ∧
    (Fit.allocate .next 30 Fit.initialState).nextFitStart =
      (((Fit.allocate .next 30 Fit.initialState).blocks.findIdx? (·.free)).getD 0) :=
  ⟨by decide, by decide,
    fit_nextfit_resume_index_amended Fit.initialState 30 0 (by decide) (by decide)⟩

/-- Witness for `Sched.schedule_entry_invariant`: the FCFS run of the sample
process set. -/
theorem schedule_entry_invariant_witness :
    Sched.runStrategy .fcfs Sched.initialProcesses Sched.defaultSettings 0
      = .ok (Sched.runFcfs Sched.initialProcesses) ∧
    ∀ e ∈ Sched.runFcfs Sched.initialProcesses, Sched.entryInvariant e :=
  ⟨rfl, Sched.schedule_entry_invariant .fcfs Sched.initialProcesses
    Sched.defaultSettings 0 (Sched.runFcfs Sched.initialProcesses) rfl⟩

/-- **C7.** In Round Robin, a process that arrives within or at the end of a
running slice is appended to the ready queue after the slice completes but
before the preempted process is re-enqueued: one loop iteration from a
drained state (`pending.takeWhile (arrival ≤ time) = []`) with a process that
does not finish in its slice (`quantum < remaining`) continues with ready
queue `rest ++ (arrivals with arrival ≤ time + quantum, in pending order) ++
[preempted current]` — the during-slice arrivals precede the just-preempted
process. -/
theorem rr_arrivals_enqueued_before_preempted
    (quantum : ℤ) (fuel : ℕ) (pending : List Sched.Proc) (time : ℤ)
    (done : List Sched.Proc) (current : Sched.Proc) (rest : List Sched.Proc)
    (hnodrain : pending.takeWhile (fun p => p.arrival ≤ time) = [])
    (hrem : quantum < current.remaining) :
    Sched.rrGo quantum (fuel + 1) pending (current :: rest) time done =
      Sched.rrGo quantum fuel
        (pending.dropWhile (fun p => p.arrival ≤ time + quantum))
        (rest
          ++ pending.takeWhile (fun p => p.arrival ≤ time + quantum)
          ++ [{ (if current.startTime = none
                then { current with startTime := some time } else current) with
                remaining := current.remaining - quantum }])
        (time + quantum) done := by
  rw [Sched.rrGo]
  rw [if_neg (by simp)]
  rw [hnodrain, Sched.dropWhile_eq_of_takeWhile_nil _ _ hnodrain]
  simp only [List.append_nil]
  have hrem₁ : ((if current.startTime = none
      then { current with startTime := some time } else current) : Sched.Proc).remaining
      = current.remaining := by
    split <;> rfl
  simp only [hrem₁, min_eq_left (le_of_lt hrem)]
  rw [if_pos (by omega)]

/-- The preempted process of the `rr_arrivals_enqueued_before_preempted`
witness. -/
def rrWitnessCurrent : Sched.Proc :=
  { id := 1, arrival := 0, burst := 4, priority := 1, order := 0, remaining := 4 }

/-- The during-slice arrival of the `rr_arrivals_enqueued_before_preempted`
witness. -/
def rrWitnessArrival : Sched.Proc :=
  { id := 2, arrival := 1, burst := 1, priority := 1, order := 1, remaining := 1 }

/-- Witness for `rr_arrivals_enqueued_before_preempted` at a concrete
state. -/
theorem rr_arrivals_enqueued_before_preempted_witness :
    ([rrWitnessArrival].takeWhile (fun p => p.arrival ≤ 0) = []) ∧
    ((2 : ℤ) < rrWitnessCurrent.remaining) ∧
    Sched.rrGo 2 (5 + 1) [rrWitnessArrival] [rrWitnessCurrent] 0 [] =
      Sched.rrGo 2 5
        ([rrWitnessArrival].dropWhile (fun p => p.arrival ≤ 0 + 2))
        ([]
          ++ [rrWitnessArrival].takeWhile (fun p => p.arrival ≤ 0 + 2)
          ++ [{ (if rrWitnessCurrent.startTime = none
                then { rrWitnessCurrent with startTime := some 0 }
                else rrWitnessCurrent) with
                remaining := rrWitnessCurrent.remaining - 2 }])
        (0 + 2) [] :=
  ⟨by decide, by decide,
    rr_arrivals_enqueued_before_preempted 2 5 [rrWitnessArrival] 0 []
      rrWitnessCurrent [] (by decide) (by decide)⟩

/-- Elements of a `getD`-fetched queue satisfy any property all queues
satisfy. -/
lemma getD_queue_bound {P : Sched.Proc → Prop} (queues : List (List Sched.Proc))
    (i : ℕ) (hq : ∀ q ∈ queues, ∀ p ∈ q, P p) :
    ∀ p ∈ queues.getD i [], P p := by
  by_cases h : i < queues.length
  · rw [List.getD_eq_getElem _ _ h]
    exact hq _ (List.getElem_mem h)
  · rw [List.getD_eq_default _ _ (by omega)]
    simp

/-- Replacing one queue preserves a property of all queues when the new queue
satisfies it. -/
lemma allQueues_set {P : Sched.Proc → Prop} (queues : List (List Sched.Proc))
    (i : ℕ) (newq : List Sched.Proc)
    (hq : ∀ q ∈ queues, ∀ p ∈ q, P p) (hnew : ∀ p ∈ newq, P p) :
    ∀ q ∈ queues.set i newq, ∀ p ∈ q, P p := by
  intro q hqmem p hp
  rcases List.mem_or_eq_of_mem_set hqmem with h | h
  · exact hq q h p hp
  · subst h
    exact hnew p hp

/-- The drain keeps the pending bound. -/
lemma mlfqDrain_pending_bound {P : Sched.Proc → Prop}
    (pending : List Sched.Proc) (queues : List (List Sched.Proc)) (time : ℤ)
    (hpend : ∀ p ∈ pending, P p) :
    ∀ p ∈ (Sched.mlfqDrain pending queues time).1, P p :=
  fun p hp => hpend p ((List.dropWhile_sublist _).subset hp)

/-- The drain keeps the per-queue level bound (arrivals enter at level 0). -/
lemma mlfqDrain_queues_bound (L : ℕ) (pending : List Sched.Proc)
    (queues : List (List Sched.Proc)) (time : ℤ)
    (hq : ∀ q ∈ queues, ∀ p ∈ q, p.level ≤ L - 1) :
    ∀ q ∈ (Sched.mlfqDrain pending queues time).2, ∀ p ∈ q, p.level ≤ L - 1 := by
  apply allQueues_set
  · exact hq
  · intro p hp
    rw [List.mem_append] at hp
    rcases hp with hp | hp
    · exact getD_queue_bound queues 0 hq p hp
    · rw [List.mem_map] at hp
      obtain ⟨p', -, rfl⟩ := hp
      exact Nat.zero_le _

/-- The drain keeps the queue count. -/
lemma mlfqDrain_length (pending : List Sched.Proc)
    (queues : List (List Sched.Proc)) (time : ℤ) :
    (Sched.mlfqDrain pending queues time).2.length = queues.length := by
  simp [Sched.mlfqDrain]

/-- Levels stay below the queue count throughout the MLFQ loop: every output
process of `mlfqGo` (finished, queued or pending) has `level ≤ L − 1`, where
`L` is the (invariant) number of queues. -/
lemma mlfqGo_level_bound (quantums : List (Option ℤ)) (L : ℕ) :
    ∀ (fuel : ℕ) (pending : List Sched.Proc) (queues : List (List Sched.Proc))
      (time : ℤ) (done : List Sched.Proc),
    queues.length = L →
    (∀ p ∈ pending, p.level ≤ L - 1) →
    (∀ q ∈ queues, ∀ p ∈ q, p.level ≤ L - 1) →
    (∀ p ∈ done, p.level ≤ L - 1) →
    (∀ p ∈ (Sched.mlfqGo quantums fuel pending queues time done).1,
        p.level ≤ L - 1) ∧
    (∀ q ∈ (Sched.mlfqGo quantums fuel pending queues time done).2.1,
        ∀ p ∈ q, p.level ≤ L - 1) ∧
    (∀ p ∈ (Sched.mlfqGo quantums fuel pending queues time done).2.2,
        p.level ≤ L - 1) := by
  intro fuel
  induction fuel with
  | zero =>
    intro pending queues time done _ hpend hq hdone
    exact ⟨hdone, hq, hpend⟩
  | succ fuel ih =>
    intro pending queues time done hlen hpend hq hdone
    have hpend₁ := mlfqDrain_pending_bound pending queues time hpend
    have hq₁ := mlfqDrain_queues_bound L pending queues time hq
    have hlen₁ : (Sched.mlfqDrain pending queues time).2.length = L := by
      rw [mlfqDrain_length]; exact hlen
    rw [Sched.mlfqGo]
    split
    · exact ⟨hdone, hq, hpend⟩
    · cases hfind : (Sched.mlfqDrain pending queues time).2.findIdx?
          (fun q => ¬ q.isEmpty) with
      | none =>
        simp only [hfind]
        cases hp₁ : (Sched.mlfqDrain pending queues time).1 with
        | cons p₀ rest =>
          refine ih _ _ _ _ hlen₁ (by rw [← hp₁]; exact hpend₁) hq₁ hdone
        | nil =>
          refine ih _ _ _ _ hlen₁ (by rw [← hp₁]; exact hpend₁) hq₁ hdone
      | some qi =>
        simp only [hfind]
        have hqi_lt : qi < (Sched.mlfqDrain pending queues time).2.length := by
          rw [List.findIdx?_eq_some_iff_getElem] at hfind
          exact hfind.1
        cases hget : (Sched.mlfqDrain pending queues time).2.getD qi [] with
        | nil =>
          simp only [hget]
          exact ⟨hdone, hq₁, hpend₁⟩
        | cons current restq =>
          simp only [hget]
          have hcur_mem : ∀ p ∈ current :: restq, p.level ≤ L - 1 := by
            rw [← hget]
            exact getD_queue_bound _ qi hq₁
          have hq₂ : ∀ q ∈ (Sched.mlfqDrain pending queues time).2.set qi restq,
              ∀ p ∈ q, p.level ≤ L - 1 :=
            allQueues_set _ qi restq hq₁
              (fun p hp => hcur_mem p (List.mem_cons_of_mem _ hp))
          have hlen₂ : ((Sched.mlfqDrain pending queues time).2.set qi restq).length
              = L := by
            rw [List.length_set]; exact hlen₁
          set current₁ : Sched.Proc := (if current.startTime = none
            then { current with startTime := some time } else current) with hc₁
          have hlvl₁ : current₁.level = current.level := by
            rw [hc₁]; split <;> rfl
          split
          · -- preempted: demote to min (qi + 1) (queue count − 1) ≤ L − 1
            apply ih
            · simp only [List.length_set, mlfqDrain_length]
              exact hlen
            · exact mlfqDrain_pending_bound _ _ _ hpend₁
            · apply allQueues_set
              · exact mlfqDrain_queues_bound L _ _ _ hq₂
              · intro p hp
                rw [List.mem_append] at hp
                rcases hp with hp | hp
                · exact getD_queue_bound _ _ (mlfqDrain_queues_bound L _ _ _ hq₂) p hp
                · rw [List.mem_singleton] at hp
                  subst hp
                  show min (qi + 1) _ ≤ L - 1
                  simp only [List.length_set, mlfqDrain_length]
                  rw [hlen]
                  omega
            · exact hdone
          · -- finished: its level is the level it was queued at
            apply ih
            · simp only [List.length_set, mlfqDrain_length]
              exact hlen
            · exact mlfqDrain_pending_bound _ _ _ hpend₁
            · exact mlfqDrain_queues_bound L _ _ _ hq₂
            · intro p hp
              rw [List.mem_append] at hp
              rcases hp with hp | hp
              · exact hdone p hp
              · rw [List.mem_singleton] at hp
                subst hp
                show current₁.level ≤ L - 1
                rw [hlvl₁]
                exact hcur_mem current (List.mem_cons_self _ _)

/-- **C8 (counterexample).** With the single configured quantum list `[2]`
(`N = 1`), the process `arrival 0, burst 3` is preempted by the first (N-th)
configured quantum and demoted to level 1 — below the claimed cap `N − 1 = 0`
— where the appended unbounded quantum runs it to completion. -/
theorem mlfq_level_cap_counterexample :
    Sched.parseMlfqLevels [2] = [2] ∧
    ((Sched.runMlfq [{ id := 1, arrival := 0, burst := 3, priority := 1 }] [2]
        100).toOption.map (fun l => l.map (·.level))) = some [some 1] := by
  exact ⟨by decide, by decide⟩

/-- **C8 (amended).** For a configured quantum list with `N` positive values,
the scheduler maintains `N + 1` levels: the first `N` with the configured
quanta and an appended last level whose quantum is unbounded (`Infinity`).  A
process preempted at the `N`-th configured level is demoted to that extra
level (so levels run up to `N`, not `N − 1`), and only the appended level's
quantum never preempts. -/
theorem mlfq_level_structure_amended (levels : List ℤ)
    (procs : List Sched.RawProcess) (fuel : ℕ) (sched : List Sched.Entry)
    (h : Sched.runMlfq procs levels fuel = .ok sched) :
    (Sched.mlfqQuantums (Sched.parseMlfqLevels levels)).length
        = (Sched.parseMlfqLevels levels).length + 1 ∧
    (Sched.mlfqQuantums (Sched.parseMlfqLevels levels)).getLast? = some none ∧
    ∀ e ∈ sched, ∀ lvl, e.level = some lvl →
      lvl ≤ (Sched.parseMlfqLevels levels).length := by
  refine ⟨by simp [Sched.mlfqQuantums], ?_, ?_⟩
  · rw [Sched.mlfqQuantums, List.getLast?_concat]
  · rw [Sched.runMlfq] at h
    split at h
    · exact absurd h (by simp)
    · injection h with h
      subst h
      intro e he lvl hlvl
      rw [List.mem_map] at he
      obtain ⟨p, hp, rfl⟩ := he
      set N := (Sched.parseMlfqLevels levels).length with hN
      set quantums := Sched.mlfqQuantums (Sched.parseMlfqLevels levels) with hquant
      have hL : quantums.length = N + 1 := by
        rw [hquant, hN]; simp [Sched.mlfqQuantums]
      have hdata : ∀ q ∈ (Sched.prepareProcesses procs).map (fun p =>
          ({ p with
              remaining := p.burst, level := 0, startTime := none,
              completionTime := none } : Sched.Proc)), q.level ≤ (N + 1) - 1 := by
        intro q hq
        rw [List.mem_map] at hq
        obtain ⟨q', -, rfl⟩ := hq
        exact Nat.zero_le _
      have hbound := mlfqGo_level_bound quantums (N + 1) fuel
        (sortBy Sched.arrivalLE ((Sched.prepareProcesses procs).map (fun p =>
          ({ p with
              remaining := p.burst, level := 0, startTime := none,
              completionTime := none } : Sched.Proc))))
        (quantums.map (fun _ => []))
        (match (sortBy Sched.arrivalLE ((Sched.prepareProcesses procs).map (fun p =>
          ({ p with
              remaining := p.burst, level := 0, startTime := none,
              completionTime := none } : Sched.Proc)))).head? with
          | some p => p.arrival
          | none => 0)
        []
        (by rw [List.length_map]; exact hL)
        (fun p hp => hdata p ((mem_sortBy _ _ _).mp hp))
        (by intro q hq p hp
            rw [List.mem_map] at hq
            obtain ⟨-, -, rfl⟩ := hq
            simp at hp)
        (by simp)
      have hfl : ∀ (k : ℕ) (q : Sched.Proc), (Sched.finalize (some k) q).level = some k :=
        fun _ _ => rfl
      rw [hfl] at hlvl
      injection hlvl with hlvl
      subst hlvl
      set r := Sched.mlfqGo quantums fuel
        (sortBy Sched.arrivalLE ((Sched.prepareProcesses procs).map (fun p =>
          ({ p with
              remaining := p.burst, level := 0, startTime := none,
              completionTime := none } : Sched.Proc))))
        (quantums.map (fun _ => []))
        (match (sortBy Sched.arrivalLE ((Sched.prepareProcesses procs).map (fun p =>
          ({ p with
              remaining := p.burst, level := 0, startTime := none,
              completionTime := none } : Sched.Proc)))).head? with
          | some p => p.arrival
          | none => 0)
        [] with hr
      cases hfind : (r.1 ++ r.2.1.flatten ++ r.2.2).find? (fun q => q.order = p.order) with
      | some q' =>
        have hq'mem := List.mem_of_find?_eq_some hfind
        rw [List.mem_append] at hq'mem
        have hlvl' : q'.level ≤ (N + 1) - 1 := by
          rcases hq'mem with hq'mem | hq'mem
          · rw [List.mem_append] at hq'mem
            rcases hq'mem with hq'mem | hq'mem
            · exact hbound.1 q' hq'mem
            · rw [List.mem_flatten] at hq'mem
              obtain ⟨l, hl, hq'mem⟩ := hq'mem
              exact hbound.2.1 l hl q' hq'mem
          · exact hbound.2.2 q' hq'mem
        simpa [hfind] using hlvl'
      | none =>
        have : p.level ≤ (N + 1) - 1 := by
          have hp' : p ∈ (Sched.prepareProcesses procs).map (fun p =>
              ({ p with
                  remaining := p.burst, level := 0, startTime := none,
                  completionTime := none } : Sched.Proc)) := hp
          exact hdata p hp'
        simpa [hfind] using this

/-- **C6.** For every reference string and every frame count > 0, the OPT
simulation always completes (with any fuel), and whenever any policy's
simulation completes, OPT's fault count is at most that policy's fault
count on the same reference string and frame count. -/
theorem page_opt_optimal (alg : Page.Algorithm) (framesCount : ℕ)
    (refs : List ℕ) (fuel fuel' : ℕ) (r : Page.SimResult)
    (hk : 0 < framesCount)
    (hr : Page.simulate alg framesCount refs fuel' = some r) :
    ∃ o, Page.simulate .opt framesCount refs fuel = some o ∧
      o.faults ≤ r.faults := by
  obtain ⟨o, ho⟩ := Page.simGo_opt_total refs fuel refs 0
    (List.replicate framesCount none)
    (List.replicate framesCount { ref := 0, lastUsed := -1 }) 0 0 0 []
  refine ⟨o, ho, ?_⟩
  unfold Page.simulate at hr
  have hlen : (List.replicate framesCount (none : Option ℕ)).length
      = framesCount := List.length_replicate framesCount none
  have hnd : ((List.replicate framesCount (none : Option ℕ)).filterMap id).Nodup := by
    rw [Page.filterMap_replicate_none]
    exact List.nodup_nil
  have hupper := Page.simGo_opt_faults_le_cost refs fuel refs 0
    (List.replicate framesCount none)
    (List.replicate framesCount { ref := 0, lastUsed := -1 }) 0 0 0 [] o ho
    rfl (by rw [hlen]; exact hk) hnd
  have hlower := Page.cost_le_simGo_faults alg refs fuel' refs 0
    (List.replicate framesCount none)
    (List.replicate framesCount { ref := 0, lastUsed := -1 }) 0 0 0 [] r hr
    (by rw [hlen]; exact hk) (by rw [hlen]; exact hk)
    (by simp [List.length_replicate]) hnd
  rw [hlen, Page.resident_replicate] at hupper hlower
  omega

/-- **C6 (witness).** On the reference string `1 2 3 1` with two frames, the
LRU run completes (4 faults) and the OPT run completes with at most as many
faults (3). -/
theorem page_opt_optimal_witness :
    ∃ r o, Page.simulate .lru 2 [1, 2, 3, 1] 1 = some r ∧
      Page.simulate .opt 2 [1, 2, 3, 1] 1 = some o ∧ o.faults ≤ r.faults := by
  obtain ⟨r, hr⟩ : ∃ r, Page.simulate .lru 2 [1, 2, 3, 1] 1 = some r := ⟨_, rfl⟩
  obtain ⟨o, ho, hle⟩ := page_opt_optimal .lru 2 [1, 2, 3, 1] 1 1 r (by decide) hr
  exact ⟨r, o, hr, ho, hle⟩

/-- Witness for `mlfq_level_structure_amended` on the sample process set. -/
theorem mlfq_level_structure_amended_witness :
    Sched.runMlfq Sched.initialProcesses [2, 4, 8] 100
      = .ok ((Sched.runMlfq Sched.initialProcesses [2, 4, 8] 100).toOption.getD []) ∧
    ((Sched.mlfqQuantums (Sched.parseMlfqLevels [2, 4, 8])).length
        = (Sched.parseMlfqLevels [2, 4, 8]).length + 1 ∧
    (Sched.mlfqQuantums (Sched.parseMlfqLevels [2, 4, 8])).getLast? = some none ∧
    ∀ e ∈ (Sched.runMlfq Sched.initialProcesses [2, 4, 8] 100).toOption.getD [],
      ∀ lvl, e.level = some lvl →
        lvl ≤ (Sched.parseMlfqLevels [2, 4, 8]).length) :=
  ⟨rfl,
    mlfq_level_structure_amended [2, 4, 8] Sched.initialProcesses 100
      ((Sched.runMlfq Sched.initialProcesses [2, 4, 8] 100).toOption.getD [])
      rfl⟩

end AlgoLab
